import Mathlib

/-!
# Ownership semantics of `rule_of_three` and `rule_of_five`

A shallow embedding of `src/basics/ruleoffive.cpp`.

* Bytes (`char`) are natural numbers; `0` is the null terminator.
* A `char*` member is `Option Nat`: `none` is `nullptr`, `some a` is the address of a
  block obtained from `new char[n]`.
* The free store is an explicit `Heap`: the live blocks, a bump counter for fresh
  addresses, the number of bytes `new[]` can still hand out, and two counters that
  record every successful `new[]` and every `delete[]` that released a block.
* A `const char*` argument is the array it points to (`some bytes`) or `nullptr`
  (`none`).
* An operation ends in one of three ways: it returns (`ok`), it throws
  `std::bad_alloc` (`bad_alloc`, carrying the state at the throw), or it has undefined
  behaviour (`ub`: reading past an array, reading or deleting a block that is not live,
  using an object outside its lifetime).
-/

set_option linter.dupNamespace false

namespace MoveSemantics

/-! ## Finite maps as association lists -/

/-- Value stored under key `k`, if any. -/
def lookup {α : Type} (k : Nat) : List (Nat × α) → Option α
  | [] => none
  | (k', v) :: l => if k = k' then some v else lookup k l

/-- Drop every entry stored under key `k`. -/
def remove {α : Type} (k : Nat) : List (Nat × α) → List (Nat × α)
  | [] => []
  | (k', v) :: l => if k = k' then remove k l else (k', v) :: remove k l

/-- Store `v` under key `k`, replacing what was there. -/
def assign {α : Type} (k : Nat) (v : α) (l : List (Nat × α)) : List (Nat × α) :=
  (k, v) :: remove k l

/-! ## The free store -/

/-- A `char*`: `none` is `nullptr`. -/
abbrev Ptr := Option Nat

/-- The free store. -/
structure Heap where
  /-- live blocks, address ↦ bytes -/
  blocks : List (Nat × List Nat)
  /-- next fresh address -/
  next : Nat
  /-- bytes that `new[]` can still hand out -/
  avail : Nat
  /-- number of successful `new[]` -/
  news : Nat
  /-- number of `delete[]` that released a block -/
  deletes : Nat
deriving DecidableEq, Repr

/-- The three ways an operation can end. `ε` is what is left behind by a throw. -/
inductive Outcome (ε α : Type) where
  | ok (a : α)
  | bad_alloc (e : ε)
  | ub
deriving DecidableEq, Repr

/-- An empty free store with `avail` bytes to hand out. -/
def Heap.empty (avail : Nat) : Heap :=
  { blocks := [], next := 0, avail := avail, news := 0, deletes := 0 }

/-- Number of live blocks. -/
def Heap.live (h : Heap) : Nat := h.blocks.length

/-- `new char[n]`: a fresh block of `n` bytes (indeterminate, modelled as zeros), or
`none` when the store cannot satisfy the request (`std::bad_alloc`). -/
def Heap.new_array (h : Heap) (n : Nat) : Option (Heap × Nat) :=
  if n ≤ h.avail then
    some ({ blocks := (h.next, List.replicate n 0) :: h.blocks
            next := h.next + 1
            avail := h.avail - n
            news := h.news + 1
            deletes := h.deletes }, h.next)
  else none

/-- `delete[] p`: a no-op on `nullptr`, releases a live block, and is undefined
(`none`) on anything else, in particular on a block that was already released. -/
def Heap.delete_array (h : Heap) : Ptr → Option Heap
  | none => some h
  | some a =>
    match lookup a h.blocks with
    | none => none
    | some b =>
      some { blocks := remove a h.blocks
             next := h.next
             avail := h.avail + b.length
             news := h.news
             deletes := h.deletes + 1 }

/-- `std::strlen`: the index of the first null byte; `none` when the array holds no
null byte (the scan would leave the array). -/
def strlen : List Nat → Option Nat
  | [] => none
  | c :: cs => if c = 0 then some 0 else (strlen cs).map (· + 1)

/-- `std::memcpy(dst, src, n)` into the live block at `dst`; `none` when the block is
not live or either array is shorter than `n`. -/
def Heap.memcpy (h : Heap) (dst : Nat) (src : List Nat) (n : Nat) : Option Heap :=
  match lookup dst h.blocks with
  | none => none
  | some b =>
    if n ≤ src.length ∧ n ≤ b.length then
      some { h with blocks := assign dst (src.take n ++ b.drop n) h.blocks }
    else none

/-- The array a `char*` points to: `some none` for `nullptr`, `none` when the pointer
dangles. -/
def Heap.deref (h : Heap) : Ptr → Option (Option (List Nat))
  | none => some none
  | some a =>
    match lookup a h.blocks with
    | none => none
    | some b => some (some b)

/-- The string read through a `const char*`: the bytes before the first null byte.
The null handle is the empty sentinel of the data model and reads as the empty
string; a dangling or unterminated block cannot be read. -/
def Heap.c_str (h : Heap) : Ptr → Option (List Nat)
  | none => some []
  | some a =>
    match lookup a h.blocks with
    | none => none
    | some b => (strlen b).map (fun n => b.take n)

/-! ## Member functions, on the member `cstring` and the free store -/

/-- The constructor `rule_of_five(const char* s = "")`, lines 46-54: the value of
the member `cstring` of the new object, and the free store. -/
def rule_of_five.rule_of_five (h : Heap) (s : Option (List Nat)) :
    Outcome Heap (Heap × Ptr) :=
  -- : cstring(nullptr)
  let cstring : Ptr := none
  match s with
  | none => .ok (h, cstring)
  | some arr =>
    match strlen arr with
    | none => .ub
    | some len =>
      let n := len + 1
      match h.new_array n with
      | none => .bad_alloc h
      | some (h1, p) =>
        match h1.memcpy p arr n with
        | none => .ub
        | some h2 => .ok (h2, some p)

/-- The default argument `""` of the constructor: the array holding only the
terminator. -/
def default_arg : Option (List Nat) := some [0]

/-- The array of a string literal with characters `s`: the characters followed by
the terminator the compiler appends. -/
def literal (s : List Nat) : Option (List Nat) := some (s ++ [0])

/-- The destructor `~rule_of_five()`, lines 56-59: `delete[] cstring`. -/
def rule_of_five.dtor (h : Heap) (cstring : Ptr) : Option Heap :=
  h.delete_array cstring

/-- The copy constructor, lines 61-63: delegates to `rule_of_five(other.cstring)`. -/
def rule_of_five.copy_ctor (h : Heap) (other_cstring : Ptr) :
    Outcome Heap (Heap × Ptr) :=
  match h.deref other_cstring with
  | none => .ub
  | some s => rule_of_five.rule_of_five h s

/-- `std::exchange(obj, new_value)`: the new value of `obj` and the returned old
value. -/
def exchange (obj new_value : Ptr) : Ptr × Ptr := (new_value, obj)

/-- The accessor `operator const char*()`, line 87 (and line 39). -/
def operator_const_char_ptr (cstring : Ptr) : Ptr := cstring

/-! ## Programs over named objects -/

/-- The free store together with the objects that are within their lifetime; an
object is its member `cstring`. -/
structure State where
  heap : Heap
  objs : List (Nat × Ptr)
deriving DecidableEq, Repr

/-- Result of a statement. -/
abbrev Res := Outcome State State

/-- The string read from object `x` through its accessor. -/
def State.content (st : State) (x : Nat) : Option (List Nat) :=
  match lookup x st.objs with
  | none => none
  | some p => st.heap.c_str (operator_const_char_ptr p)

/-- Declaration `rule_of_five x{s};`. -/
def rule_of_five.construct (st : State) (x : Nat) (s : Option (List Nat)) : Res :=
  match lookup x st.objs with
  | some _ => .ub
  | none =>
    match rule_of_five.rule_of_five st.heap s with
    | .ub => .ub
    | .bad_alloc h => .bad_alloc { st with heap := h }
    | .ok (h, p) => .ok { heap := h, objs := assign x p st.objs }

/-- Declaration `rule_of_five x{y};` (copy construction, as on line 94). -/
def rule_of_five.copy_construct (st : State) (x y : Nat) : Res :=
  match lookup x st.objs, lookup y st.objs with
  | none, some other =>
    match rule_of_five.copy_ctor st.heap other with
    | .ub => .ub
    | .bad_alloc h => .bad_alloc { st with heap := h }
    | .ok (h, p) => .ok { heap := h, objs := assign x p st.objs }
  | _, _ => .ub

/-- Declaration `rule_of_five x{std::move(y)};`: the move constructor, lines 65-67,
`cstring(std::exchange(other.cstring, nullptr))`. -/
def rule_of_five.move_construct (st : State) (x y : Nat) : Res :=
  match lookup x st.objs, lookup y st.objs with
  | none, some other =>
    let r := exchange other none
    .ok { st with objs := assign x r.2 (assign y r.1 st.objs) }
  | _, _ => .ub

/-- Statement `t = std::move(s);`: the move assignment, lines 75-79,
`std::swap(cstring, other.cstring)`. The three moves of `std::swap` are done in
order on the store of objects, so `t` and `s` may be the same object. -/
def rule_of_five.move_assign (st : State) (t s : Nat) : Res :=
  match lookup t st.objs, lookup s st.objs with
  | some a, some b =>
    -- tmp = std::move(a); a = std::move(b); b = std::move(tmp);
    let tmp := a
    let objs1 := assign t b st.objs
    .ok { st with objs := assign s tmp objs1 }
  | _, _ => .ub

/-- Statement `t = s;`: the copy assignment, lines 70-73,
`return *this = rule_of_five(other);`: a temporary is copy-constructed from `s`,
move-assigned into `t` (a swap of the two members), and destroyed at the end of the
full expression. -/
def rule_of_five.copy_assign (st : State) (t s : Nat) : Res :=
  match lookup t st.objs, lookup s st.objs with
  | some cstring, some other =>
    match rule_of_five.copy_ctor st.heap other with
    | .ub => .ub
    | .bad_alloc h => .bad_alloc { st with heap := h }
    | .ok (h1, temporary) =>
      -- std::swap(cstring, temporary.cstring)
      let objs1 := assign t temporary st.objs
      let temporary1 := cstring
      -- ~rule_of_five() of the temporary
      match rule_of_five.dtor h1 temporary1 with
      | none => .ub
      | some h2 => .ok { heap := h2, objs := objs1 }
  | _, _ => .ub

/-- End of the lifetime of `x`: the destructor runs and the object is gone. -/
def rule_of_five.destruct (st : State) (x : Nat) : Res :=
  match lookup x st.objs with
  | none => .ub
  | some p =>
    match rule_of_five.dtor st.heap p with
    | none => .ub
    | some h => .ok { heap := h, objs := remove x st.objs }

/-! ### `rule_of_three` -/

/-- The private constructor `rule_of_three(const char* s, std::size_t n)`, lines
9-13: `cstring(new char[n])`, then `memcpy(cstring, s, n)`. -/
def rule_of_three.rule_of_three_n (h : Heap) (s : List Nat) (n : Nat) :
    Outcome Heap (Heap × Ptr) :=
  match h.new_array n with
  | none => .bad_alloc h
  | some (h1, p) =>
    match h1.memcpy p s n with
    | none => .ub
    | some h2 => .ok (h2, some p)

/-- The constructor `rule_of_three(const char* s = "")`, lines 15-17: delegates with
`std::strlen(s) + 1`; `strlen` of `nullptr` is undefined. -/
def rule_of_three.rule_of_three (h : Heap) (s : Option (List Nat)) :
    Outcome Heap (Heap × Ptr) :=
  match s with
  | none => .ub
  | some arr =>
    match strlen arr with
    | none => .ub
    | some len => rule_of_three.rule_of_three_n h arr (len + 1)

/-- Statement `t = s;` on `rule_of_three` objects: the copy assignment, lines
25-37. -/
def rule_of_three.copy_assign (st : State) (t s : Nat) : Res :=
  match lookup t st.objs, lookup s st.objs with
  | some cstring, some other_cstring =>
    -- if (this == &other) return *this;
    if t = s then .ok st
    else
      match st.heap.deref other_cstring with
      | none => .ub
      | some none => .ub
      | some (some arr) =>
        match strlen arr with
        | none => .ub
        | some len =>
          let n := len + 1
          match st.heap.new_array n with
          | none => .bad_alloc st
          | some (h1, new_cstring) =>
            match h1.memcpy new_cstring arr n with
            | none => .ub
            | some h2 =>
              match h2.delete_array cstring with
              | none => .ub
              | some h3 => .ok { heap := h3, objs := assign t (some new_cstring) st.objs }
  | _, _ => .ub

/-! ## Sequences of operations -/

/-- The operations on `rule_of_five` objects; objects are named by numbers. -/
inductive Op where
  /-- `rule_of_five x{"..."};` with the characters of the literal -/
  | construct (x : Nat) (s : List Nat)
  /-- `rule_of_five x{y};` -/
  | copy_construct (x y : Nat)
  /-- `rule_of_five x{std::move(y)};` -/
  | move_construct (x y : Nat)
  /-- `t = s;` -/
  | copy_assign (t s : Nat)
  /-- `t = std::move(s);` -/
  | move_assign (t s : Nat)
  /-- the lifetime of `x` ends -/
  | destruct (x : Nat)
deriving DecidableEq, Repr

/-- One operation. -/
def step (st : State) : Op → Res
  | .construct x s => rule_of_five.construct st x (literal s)
  | .copy_construct x y => rule_of_five.copy_construct st x y
  | .move_construct x y => rule_of_five.move_construct st x y
  | .copy_assign t s => rule_of_five.copy_assign st t s
  | .move_assign t s => rule_of_five.move_assign st t s
  | .destruct x => rule_of_five.destruct st x

/-- A sequence of operations; a throw or undefined behaviour ends the run. -/
def exec (st : State) : List Op → Res
  | [] => .ok st
  | op :: ops =>
    match step st op with
    | .ok st1 => exec st1 ops
    | r => r

/-- The names in scope after a sequence of operations that starts with the names
`names` in scope, or `none` when the sequence declares a name that is in scope or
uses or destroys one that is not. A sequence that ends with no name in scope has
destroyed every object it constructed exactly once. -/
def scope_after (names : List Nat) : List Op → Option (List Nat)
  | [] => some names
  | .construct x _ :: ops =>
    if x ∈ names then none else scope_after (x :: names) ops
  | .copy_construct x y :: ops =>
    if x ∉ names ∧ y ∈ names then scope_after (x :: names) ops else none
  | .move_construct x y :: ops =>
    if x ∉ names ∧ y ∈ names then scope_after (x :: names) ops else none
  | .copy_assign t s :: ops =>
    if t ∈ names ∧ s ∈ names then scope_after names ops else none
  | .move_assign t s :: ops =>
    if t ∈ names ∧ s ∈ names then scope_after names ops else none
  | .destruct x :: ops =>
    if x ∈ names then scope_after (names.filter (· ≠ x)) ops else none

/-- No object, nothing allocated. -/
def State.init (avail : Nat) : State := { heap := Heap.empty avail, objs := [] }

/-- The function `main`, lines 90-100, with the objects `o1`, `o2`, `o3` named 1, 2,
3 and the characters of the literals as their codes; the destructors run in reverse
order of construction. -/
def main : List Op :=
  [ .construct 1 [97, 98, 99],
    .copy_construct 2 1,
    .construct 3 [100, 101, 102],
    .copy_assign 3 2,
    .destruct 3, .destruct 2, .destruct 1 ]

/-- The state after `rule_of_five o1{"abc"};` (object 1) in an empty store of 100
bytes. -/
def one_object : State :=
  { heap := { blocks := [(0, [97, 98, 99, 0])], next := 1, avail := 96, news := 1,
              deletes := 0 }
    objs := [(1, some 0)] }

/-- The state after `rule_of_five t{"def"}; rule_of_five s{"abc"};` (objects 1 and 2)
in an empty store of 100 bytes. -/
def two_objects : State :=
  { heap := { blocks := [(1, [97, 98, 99, 0]), (0, [100, 101, 102, 0])], next := 2,
              avail := 92, news := 2, deletes := 0 }
    objs := [(2, some 1), (1, some 0)] }

/-- The state `two_objects` when the store has nothing left to hand out. -/
def two_objects_full : State :=
  { heap := { blocks := [(1, [97, 98, 99, 0]), (0, [100, 101, 102, 0])], next := 2,
              avail := 0, news := 2, deletes := 0 }
    objs := [(2, some 1), (1, some 0)] }

/-! ## Invariants -/

/-- The keys of an association list. -/
def keys {α : Type} (l : List (Nat × α)) : List Nat := l.map Prod.fst

/-- A block as invariant I1 wants it: `length + 1` bytes, the first null byte being
the last byte. -/
def terminated (b : List Nat) : Prop := (strlen b).map (· + 1) = some b.length

instance (b : List Nat) : Decidable (terminated b) := by
  unfold terminated; infer_instance

/-- Consistency of the free store: addresses are unique and below the bump counter,
and the counters account for the live blocks. -/
structure Heap.WF (h : Heap) : Prop where
  nodup : (keys h.blocks).Nodup
  fresh : ∀ a b, lookup a h.blocks = some b → a < h.next
  count : h.news = h.deletes + h.live

/-- The invariants of the data model over a state: I1 (every handle is the sentinel
or a live block that ends in its only terminator) and I2 (every live block is owned,
and by one object only). -/
structure State.Inv (st : State) : Prop where
  heap_wf : st.heap.WF
  valid : ∀ x a, lookup x st.objs = some (some a) →
    ∃ b, lookup a st.heap.blocks = some b ∧ terminated b
  owned : ∀ a b, lookup a st.heap.blocks = some b → ∃ x, lookup x st.objs = some (some a)
  exclusive : ∀ x y a, lookup x st.objs = some (some a) →
    lookup y st.objs = some (some a) → x = y

/-- The state an operation leaves behind, by return or by throw. -/
def Outcome.after {σ : Type} : Outcome σ σ → Option σ
  | .ok st => some st
  | .bad_alloc st => some st
  | .ub => none

/-- The free store after `new char[b.length]` succeeded and the block was filled with
the bytes `b`. -/
def Heap.pushed (h : Heap) (b : List Nat) : Heap :=
  { blocks := (h.next, b) :: remove h.next h.blocks
    next := h.next + 1
    avail := h.avail - b.length
    news := h.news + 1
    deletes := h.deletes }

/-- The free store after `delete[]` released the block at `a`, which held `b`. -/
def Heap.released (h : Heap) (a : Nat) (b : List Nat) : Heap :=
  { blocks := remove a h.blocks
    next := h.next
    avail := h.avail + b.length
    news := h.news
    deletes := h.deletes + 1 }

/-! ## Lemmas on association lists -/

theorem lookup_remove {α : Type} (k k' : Nat) (l : List (Nat × α)) :
    lookup k (remove k' l) = if k = k' then none else lookup k l := by
  induction l with
  | nil => simp [remove, lookup]
  | cons p l ih =>
    obtain ⟨a, v⟩ := p
    by_cases h1 : k' = a <;> by_cases h3 : k = k' <;> by_cases h2 : k = a <;>
      simp_all [remove, lookup]

theorem lookup_assign {α : Type} (k k' : Nat) (v : α) (l : List (Nat × α)) :
    lookup k (assign k' v l) = if k = k' then some v else lookup k l := by
  by_cases h : k = k' <;> simp [assign, lookup, lookup_remove, h]

theorem lookup_eq_none_iff {α : Type} (k : Nat) (l : List (Nat × α)) :
    lookup k l = none ↔ k ∉ keys l := by
  induction l with
  | nil => simp [lookup, keys]
  | cons p l ih =>
    obtain ⟨a, v⟩ := p
    by_cases h : k = a <;> simp_all [lookup, keys]

theorem mem_keys_iff {α : Type} (k : Nat) (l : List (Nat × α)) :
    k ∈ keys l ↔ ∃ v, lookup k l = some v := by
  rw [← not_iff_not, ← lookup_eq_none_iff]
  cases lookup k l <;> simp

theorem remove_of_not_mem {α : Type} (k : Nat) (l : List (Nat × α)) (h : k ∉ keys l) :
    remove k l = l := by
  induction l with
  | nil => rfl
  | cons p l ih =>
    obtain ⟨a, v⟩ := p
    simp only [keys, List.map_cons, List.mem_cons, not_or] at h
    have h2 : remove k l = l := ih (by simpa [keys] using h.2)
    simp [remove, h.1, h2]

theorem keys_remove {α : Type} (k : Nat) (l : List (Nat × α)) :
    keys (remove k l) = (keys l).filter (fun a => decide (a ≠ k)) := by
  induction l with
  | nil => rfl
  | cons p l ih =>
    obtain ⟨a, v⟩ := p
    by_cases h : k = a
    · subst h; simpa [remove, keys] using ih
    · have h' : a ≠ k := fun e => h e.symm
      simpa [remove, keys, h, h'] using ih

theorem mem_keys_remove {α : Type} (a k : Nat) (l : List (Nat × α)) :
    a ∈ keys (remove k l) ↔ a ∈ keys l ∧ a ≠ k := by
  simp [keys_remove]

theorem nodup_keys_remove {α : Type} (k : Nat) (l : List (Nat × α))
    (h : (keys l).Nodup) : (keys (remove k l)).Nodup := by
  rw [keys_remove]; exact h.filter _

theorem length_remove {α : Type} (k : Nat) (l : List (Nat × α))
    (hn : (keys l).Nodup) (hk : k ∈ keys l) : (remove k l).length + 1 = l.length := by
  induction l with
  | nil => simp [keys] at hk
  | cons p l ih =>
    obtain ⟨a, v⟩ := p
    simp only [keys, List.map_cons, List.nodup_cons] at hn
    by_cases h : k = a
    · subst h
      have : remove k l = l := remove_of_not_mem k l (by simpa [keys] using hn.1)
      simp [remove, this]
    · have hk' : k ∈ keys l := by
        simp only [keys, List.map_cons, List.mem_cons] at hk
        rcases hk with hk | hk
        · exact absurd hk h
        · simpa [keys] using hk
      have := ih (by simpa [keys] using hn.2) hk'
      simp [remove, h, this]

/-! ## Lemmas on C strings -/

theorem strlen_lt {b : List Nat} {n : Nat} (h : strlen b = some n) : n < b.length := by
  induction b generalizing n with
  | nil => simp [strlen] at h
  | cons c cs ih =>
    by_cases hc : c = 0
    · simp [strlen, hc] at h; subst h; simp
    · simp only [strlen, hc, if_false, Option.map_eq_some'] at h
      obtain ⟨m, hm, rfl⟩ := h
      have := ih hm
      simp; omega

theorem strlen_take_succ {b : List Nat} {n : Nat} (h : strlen b = some n) :
    strlen (b.take (n + 1)) = some n := by
  induction b generalizing n with
  | nil => simp [strlen] at h
  | cons c cs ih =>
    by_cases hc : c = 0
    · simp [strlen, hc] at h; subst h; simp [strlen, hc]
    · simp only [strlen, hc, if_false, Option.map_eq_some'] at h
      obtain ⟨m, hm, rfl⟩ := h
      simp [strlen, hc, ih hm]

theorem terminated_take {b : List Nat} {n : Nat} (h : strlen b = some n) :
    terminated (b.take (n + 1)) := by
  have := strlen_lt h
  simp [terminated, strlen_take_succ h]; omega

theorem take_of_terminated {b : List Nat} {n : Nat} (h : strlen b = some n)
    (ht : terminated b) : b.take (n + 1) = b := by
  simp [terminated, h] at ht
  exact List.take_of_length_le (by omega)

theorem strlen_literal (s : List Nat) (h : 0 ∉ s) : strlen (s ++ [0]) = some s.length := by
  induction s with
  | nil => simp [strlen]
  | cons c cs ih =>
    simp only [List.mem_cons, not_or] at h
    have hc : c ≠ 0 := fun e => h.1 e.symm
    simp [strlen, hc, ih h.2]

/-! ## Lemmas on the free store -/

theorem lookup_pushed (h : Heap) (b : List Nat) (a : Nat) :
    lookup a (h.pushed b).blocks = if a = h.next then some b else lookup a h.blocks := by
  by_cases e : a = h.next <;> simp [Heap.pushed, lookup, lookup_remove, e]

theorem lookup_released (h : Heap) (c : Nat) (bc : List Nat) (a : Nat) :
    lookup a (h.released c bc).blocks = if a = c then none else lookup a h.blocks := by
  simp [Heap.released, lookup_remove]

theorem Heap.WF.next_not_mem {h : Heap} (w : h.WF) : h.next ∉ keys h.blocks := by
  intro hm
  obtain ⟨b, hb⟩ := (mem_keys_iff _ _).1 hm
  exact absurd (w.fresh _ _ hb) (lt_irrefl _)

theorem Heap.WF.lookup_next {h : Heap} (w : h.WF) : lookup h.next h.blocks = none :=
  (lookup_eq_none_iff _ _).2 w.next_not_mem

theorem Heap.WF.pushed_blocks {h : Heap} (w : h.WF) (b : List Nat) :
    (h.pushed b).blocks = (h.next, b) :: h.blocks := by
  simp [Heap.pushed, remove_of_not_mem _ _ w.next_not_mem]

theorem Heap.WF.pushed {h : Heap} (w : h.WF) (b : List Nat) : (h.pushed b).WF := by
  refine ⟨?_, ?_, ?_⟩
  · rw [w.pushed_blocks]
    simpa [keys] using And.intro (by simpa [keys] using w.next_not_mem) w.nodup
  · intro a b' hb
    rw [lookup_pushed] at hb
    by_cases e : a = h.next
    · simp [Heap.pushed, e]
    · simp only [e, if_false] at hb
      have := w.fresh _ _ hb
      simp [Heap.pushed]; omega
  · have := w.count
    simp only [Heap.live] at this ⊢
    rw [w.pushed_blocks]
    simp [Heap.pushed]; omega

theorem Heap.WF.released {h : Heap} (w : h.WF) {c : Nat} {bc : List Nat}
    (hc : lookup c h.blocks = some bc) : (h.released c bc).WF := by
  refine ⟨?_, ?_, ?_⟩
  · exact nodup_keys_remove _ _ w.nodup
  · intro a b' hb
    rw [lookup_released] at hb
    by_cases e : a = c
    · simp [e] at hb
    · simp only [e, if_false] at hb
      exact w.fresh _ _ hb
  · have h1 := w.count
    have h2 := length_remove c h.blocks w.nodup ((mem_keys_iff _ _).2 ⟨bc, hc⟩)
    simp only [Heap.live] at h1 ⊢
    simp only [Heap.released]
    omega

theorem Heap.WF.live_pushed {h : Heap} (w : h.WF) (b : List Nat) :
    (h.pushed b).live = h.live + 1 := by
  simp [Heap.live, w.pushed_blocks]

theorem Heap.WF.live_released {h : Heap} (w : h.WF) {c : Nat} {bc : List Nat}
    (hc : lookup c h.blocks = some bc) : (h.released c bc).live + 1 = h.live := by
  simpa [Heap.live, Heap.released] using
    length_remove c h.blocks w.nodup ((mem_keys_iff _ _).2 ⟨bc, hc⟩)

theorem delete_array_some (h : Heap) {c : Nat} {bc : List Nat}
    (hc : lookup c h.blocks = some bc) :
    h.delete_array (some c) = some (h.released c bc) := by
  simp [Heap.delete_array, hc, Heap.released]

/-- The constructor on an array with a terminator, when the store can satisfy the
request: a fresh block holding the bytes up to and including the terminator. -/
theorem ctor_some (h : Heap) {arr : List Nat} {len : Nat} (hs : strlen arr = some len)
    (ha : len + 1 ≤ h.avail) :
    rule_of_five.rule_of_five h (some arr)
      = .ok (h.pushed (arr.take (len + 1)), some h.next) := by
  have hl := strlen_lt hs
  have h1 : len + 1 ≤ arr.length := hl
  simp [rule_of_five.rule_of_five, hs, Heap.new_array, ha, Heap.memcpy, lookup, assign,
    remove, Heap.pushed, h1, List.take_of_length_le]

/-- The constructor on an array with a terminator, when the store cannot satisfy the
request: `std::bad_alloc`, the store untouched. -/
theorem ctor_fail (h : Heap) {arr : List Nat} {len : Nat} (hs : strlen arr = some len)
    (ha : h.avail < len + 1) :
    rule_of_five.rule_of_five h (some arr) = .bad_alloc h := by
  have : ¬ (len + 1 ≤ h.avail) := by omega
  simp [rule_of_five.rule_of_five, hs, Heap.new_array, this]

/-! ## Preservation of the invariants -/

theorem State.Inv.ne_next {st : State} (i : st.Inv) {x a : Nat}
    (hx : lookup x st.objs = some (some a)) : a ≠ st.heap.next := by
  obtain ⟨b, hb, _⟩ := i.valid x a hx
  exact Nat.ne_of_lt (i.heap_wf.fresh _ _ hb)

/-- An object that owns nothing takes a freshly allocated block. -/
theorem State.Inv.take {st : State} (i : st.Inv) {x : Nat} {b : List Nat}
    (hx : ∀ a, lookup x st.objs ≠ some (some a)) (hb : terminated b) :
    State.Inv { heap := st.heap.pushed b, objs := assign x (some st.heap.next) st.objs } := by
  refine ⟨i.heap_wf.pushed b, ?_, ?_, ?_⟩
  · intro x' a' h
    simp only [lookup_assign, lookup_pushed] at h ⊢
    by_cases e : x' = x
    · simp only [e, if_true, Option.some.injEq] at h
      subst h
      exact ⟨b, by simp, hb⟩
    · simp only [e, if_false] at h
      simp only [i.ne_next h, if_false]
      exact i.valid _ _ h
  · intro a' b' h
    simp only [lookup_assign, lookup_pushed] at h ⊢
    by_cases e : a' = st.heap.next
    · exact ⟨x, by simp [e]⟩
    · simp only [e, if_false] at h
      obtain ⟨x', hx'⟩ := i.owned _ _ h
      have : x' ≠ x := fun ex => hx a' (ex ▸ hx')
      exact ⟨x', by simp [this, hx']⟩
  · intro x1 x2 a' h1 h2
    simp only [lookup_assign] at h1 h2
    by_cases e1 : x1 = x <;> by_cases e2 : x2 = x
    · rw [e1, e2]
    · simp only [e1, if_true, Option.some.injEq] at h1
      simp only [e2, if_false] at h2
      exact absurd h1.symm (i.ne_next h2)
    · simp only [e2, if_true, Option.some.injEq] at h2
      simp only [e1, if_false] at h1
      exact absurd h2.symm (i.ne_next h1)
    · simp only [e1, e2, if_false] at h1 h2
      exact i.exclusive _ _ _ h1 h2

/-- An object that owns nothing is given (or keeps) the null handle. -/
theorem State.Inv.null {st : State} (i : st.Inv) {x : Nat}
    (hx : ∀ a, lookup x st.objs ≠ some (some a)) :
    State.Inv { heap := st.heap, objs := assign x none st.objs } := by
  refine ⟨i.heap_wf, ?_, ?_, ?_⟩
  · intro x' a' h
    simp only [lookup_assign] at h
    by_cases e : x' = x
    · simp [e] at h
    · simp only [e, if_false] at h
      exact i.valid _ _ h
  · intro a' b' h
    obtain ⟨x', hx'⟩ := i.owned _ _ h
    have : x' ≠ x := fun ex => hx a' (ex ▸ hx')
    exact ⟨x', by simp [lookup_assign, this, hx']⟩
  · intro x1 x2 a' h1 h2
    simp only [lookup_assign] at h1 h2
    by_cases e1 : x1 = x
    · simp [e1] at h1
    · by_cases e2 : x2 = x
      · simp [e2] at h2
      · simp only [e1, e2, if_false] at h1 h2
        exact i.exclusive _ _ _ h1 h2

/-- An object that owns nothing goes away. -/
theorem State.Inv.forget {st : State} (i : st.Inv) {x : Nat}
    (hx : ∀ a, lookup x st.objs ≠ some (some a)) :
    State.Inv { heap := st.heap, objs := remove x st.objs } := by
  refine ⟨i.heap_wf, ?_, ?_, ?_⟩
  · intro x' a' h
    simp only [lookup_remove] at h
    by_cases e : x' = x
    · simp [e] at h
    · simp only [e, if_false] at h
      exact i.valid _ _ h
  · intro a' b' h
    obtain ⟨x', hx'⟩ := i.owned _ _ h
    have : x' ≠ x := fun ex => hx a' (ex ▸ hx')
    exact ⟨x', by simp [lookup_remove, this, hx']⟩
  · intro x1 x2 a' h1 h2
    simp only [lookup_remove] at h1 h2
    by_cases e1 : x1 = x
    · simp [e1] at h1
    · by_cases e2 : x2 = x
      · simp [e2] at h2
      · simp only [e1, e2, if_false] at h1 h2
        exact i.exclusive _ _ _ h1 h2

/-- An object gives up the block it owns: the block is released and the object is
left with `v`, which is no handle (`none`: the object is gone; `some none`: the null
handle). -/
theorem State.Inv.release {st : State} (i : st.Inv) {x c : Nat} {bc : List Nat}
    (hx : lookup x st.objs = some (some c)) (hc : lookup c st.heap.blocks = some bc)
    (objs1 : List (Nat × Ptr))
    (h1 : ∀ x', lookup x' objs1 = if x' = x then none else lookup x' st.objs) :
    State.Inv { heap := st.heap.released c bc, objs := objs1 } ∧
    State.Inv { heap := st.heap.released c bc, objs := assign x none objs1 } := by
  have key : ∀ x' a', x' ≠ x → lookup x' st.objs = some (some a') → a' ≠ c := by
    intro x' a' e h ec
    exact e (i.exclusive _ _ _ (ec ▸ h) hx)
  have base : State.Inv { heap := st.heap.released c bc, objs := objs1 } := by
    refine ⟨i.heap_wf.released hc, ?_, ?_, ?_⟩
    · intro x' a' h
      simp only [h1, lookup_released] at h ⊢
      by_cases e : x' = x
      · simp [e] at h
      · simp only [e, if_false] at h
        simp only [key _ _ e h, if_false]
        exact i.valid _ _ h
    · intro a' b' h
      simp only [lookup_released] at h
      by_cases e : a' = c
      · simp [e] at h
      · simp only [e, if_false] at h
        obtain ⟨x', hx'⟩ := i.owned _ _ h
        have : x' ≠ x := by
          intro ex
          rw [ex, hx] at hx'
          exact e (Option.some.inj (Option.some.inj hx')).symm
        exact ⟨x', by simp [h1, this, hx']⟩
    · intro x1 x2 a' h1' h2'
      simp only [h1] at h1' h2'
      by_cases e1 : x1 = x
      · simp [e1] at h1'
      · by_cases e2 : x2 = x
        · simp [e2] at h2'
        · simp only [e1, e2, if_false] at h1' h2'
          exact i.exclusive _ _ _ h1' h2'
  refine ⟨base, ?_⟩
  exact State.Inv.null base (by intro a; simp [h1])

/-- The invariants see the objects and the blocks only through `lookup`. -/
theorem State.Inv.congr {st st1 : State} (i : st.Inv) (w : st1.heap.WF)
    (hb : ∀ a, lookup a st1.heap.blocks = lookup a st.heap.blocks)
    (ho : ∀ x, lookup x st1.objs = lookup x st.objs) : st1.Inv := by
  refine ⟨w, ?_, ?_, ?_⟩
  · intro x a h
    rw [ho] at h
    simpa [hb] using i.valid x a h
  · intro a b h
    rw [hb] at h
    simpa [ho] using i.owned a b h
  · intro x y a h1 h2
    rw [ho] at h1 h2
    exact i.exclusive x y a h1 h2

/-- An object that owns a block takes a freshly allocated block, and the block it
owned is released afterwards. -/
theorem State.Inv.replace {st : State} (i : st.Inv) {t c : Nat} {b bc : List Nat}
    (ht : lookup t st.objs = some (some c)) (hc : lookup c st.heap.blocks = some bc)
    (hb : terminated b) :
    State.Inv { heap := (st.heap.pushed b).released c bc,
                objs := assign t (some st.heap.next) st.objs } := by
  have i1 := (i.release ht hc (remove t st.objs) (fun x' => lookup_remove x' t st.objs)).1
  have i2 : State.Inv { heap := (st.heap.released c bc).pushed b
                        objs := assign t (some st.heap.next) (remove t st.objs) } :=
    State.Inv.take i1 (by intro a; simp [lookup_remove]) hb
  have hc1 : lookup c (st.heap.pushed b).blocks = some bc := by
    rw [lookup_pushed]; simp [i.ne_next ht, hc]
  refine i2.congr ((i.heap_wf.pushed b).released hc1) ?_ ?_
  · intro a
    have hn : (st.heap.released c bc).next = st.heap.next := rfl
    simp only [lookup_pushed, lookup_released, hn]
    have hne := i.ne_next ht
    have hne1 : ¬ st.heap.next = c := fun e => hne e.symm
    by_cases e1 : a = st.heap.next <;> by_cases e2 : a = c <;> simp [e1, e2, hne, hne1]
  · intro x
    by_cases e : x = t <;> simp [lookup_assign, lookup_remove, e]

/-- Two different objects exchange what they hold (one of them may be an object that
is only now coming to life, or the null handle). -/
theorem State.Inv.swap {st : State} (i : st.Inv) {t s : Nat} (hts : t ≠ s)
    (objs1 : List (Nat × Ptr)) (vt vs : Option Ptr)
    (hvt : ∀ a, vt = some (some a) ↔ lookup s st.objs = some (some a))
    (hvs : ∀ a, vs = some (some a) ↔ lookup t st.objs = some (some a))
    (h : ∀ x, lookup x objs1 = if x = t then vt else if x = s then vs else lookup x st.objs) :
    State.Inv { heap := st.heap, objs := objs1 } := by
  have back : ∀ x a, lookup x objs1 = some (some a) →
      lookup (if x = t then s else if x = s then t else x) st.objs = some (some a) := by
    intro x a hx
    rw [h] at hx
    by_cases e1 : x = t
    · simp only [e1, if_true] at hx ⊢
      exact (hvt a).1 hx
    · by_cases e2 : x = s
      · have e3 : ¬ s = t := fun e => hts e.symm
        simp only [e2, e3, if_true, if_false] at hx ⊢
        exact (hvs a).1 hx
      · simpa [e1, e2] using hx
  refine ⟨i.heap_wf, ?_, ?_, ?_⟩
  · intro x a hx
    exact i.valid _ a (back x a hx)
  · intro a b hb
    obtain ⟨x, hx⟩ := i.owned a b hb
    by_cases e1 : x = t
    · exact ⟨s, by rw [h]; simp only [hts.symm, if_false, if_true]; exact (hvs a).2 (e1 ▸ hx)⟩
    · by_cases e2 : x = s
      · exact ⟨t, by rw [h]; simp only [if_true]; exact (hvt a).2 (e2 ▸ hx)⟩
      · exact ⟨x, by rw [h]; simpa [e1, e2] using hx⟩
  · intro x y a hx hy
    have := i.exclusive _ _ a (back x a hx) (back y a hy)
    by_cases e1 : x = t <;> by_cases e2 : x = s <;> by_cases e3 : y = t <;>
      by_cases e4 : y = s <;> simp_all

/-! ## What each operation does -/

theorem strlen_of_terminated {b : List Nat} (h : terminated b) :
    ∃ len, strlen b = some len ∧ b.length = len + 1 := by
  unfold terminated at h
  cases hs : strlen b with
  | none => simp [hs] at h
  | some len => exact ⟨len, rfl, by simpa [hs] using h.symm⟩

theorem strlen_append_zero (s : List Nat) : ∃ len, strlen (s ++ [0]) = some len := by
  induction s with
  | nil => exact ⟨0, by simp [strlen]⟩
  | cons c cs ih =>
    obtain ⟨len, hl⟩ := ih
    by_cases hc : c = 0
    · exact ⟨0, by simp [strlen, hc]⟩
    · exact ⟨len + 1, by simp [strlen, hc, hl]⟩

theorem construct_ok {st : State} {x : Nat} {arr : List Nat} {len : Nat}
    (hx : lookup x st.objs = none) (hs : strlen arr = some len)
    (ha : len + 1 ≤ st.heap.avail) :
    rule_of_five.construct st x (some arr)
      = .ok { heap := st.heap.pushed (arr.take (len + 1))
              objs := assign x (some st.heap.next) st.objs } := by
  simp [rule_of_five.construct, hx, ctor_some st.heap hs ha]

theorem construct_throw {st : State} {x : Nat} {arr : List Nat} {len : Nat}
    (hx : lookup x st.objs = none) (hs : strlen arr = some len)
    (ha : st.heap.avail < len + 1) :
    rule_of_five.construct st x (some arr) = .bad_alloc st := by
  simp [rule_of_five.construct, hx, ctor_fail st.heap hs ha]

theorem copy_construct_null {st : State} {x y : Nat}
    (hx : lookup x st.objs = none) (hy : lookup y st.objs = some none) :
    rule_of_five.copy_construct st x y
      = .ok { heap := st.heap, objs := assign x none st.objs } := by
  simp [rule_of_five.copy_construct, hx, hy, rule_of_five.copy_ctor, Heap.deref,
    rule_of_five.rule_of_five]

theorem copy_construct_ok {st : State} {x y a : Nat} {b : List Nat} {len : Nat}
    (hx : lookup x st.objs = none) (hy : lookup y st.objs = some (some a))
    (hb : lookup a st.heap.blocks = some b) (hs : strlen b = some len)
    (ha : len + 1 ≤ st.heap.avail) :
    rule_of_five.copy_construct st x y
      = .ok { heap := st.heap.pushed (b.take (len + 1))
              objs := assign x (some st.heap.next) st.objs } := by
  simp [rule_of_five.copy_construct, hx, hy, rule_of_five.copy_ctor, Heap.deref, hb,
    ctor_some st.heap hs ha]

theorem copy_construct_throw {st : State} {x y a : Nat} {b : List Nat} {len : Nat}
    (hx : lookup x st.objs = none) (hy : lookup y st.objs = some (some a))
    (hb : lookup a st.heap.blocks = some b) (hs : strlen b = some len)
    (ha : st.heap.avail < len + 1) :
    rule_of_five.copy_construct st x y = .bad_alloc st := by
  simp [rule_of_five.copy_construct, hx, hy, rule_of_five.copy_ctor, Heap.deref, hb,
    ctor_fail st.heap hs ha]

theorem move_construct_ok {st : State} {x y : Nat} {p : Ptr}
    (hx : lookup x st.objs = none) (hy : lookup y st.objs = some p) :
    rule_of_five.move_construct st x y
      = .ok { heap := st.heap, objs := assign x p (assign y none st.objs) } := by
  simp [rule_of_five.move_construct, hx, hy, exchange]

theorem move_assign_ok {st : State} {t s : Nat} {a b : Ptr}
    (ht : lookup t st.objs = some a) (hs : lookup s st.objs = some b) :
    rule_of_five.move_assign st t s
      = .ok { heap := st.heap, objs := assign s a (assign t b st.objs) } := by
  simp [rule_of_five.move_assign, ht, hs]

theorem destruct_null {st : State} {x : Nat} (hx : lookup x st.objs = some none) :
    rule_of_five.destruct st x = .ok { heap := st.heap, objs := remove x st.objs } := by
  simp [rule_of_five.destruct, hx, rule_of_five.dtor, Heap.delete_array]

theorem destruct_ok {st : State} {x c : Nat} {bc : List Nat}
    (hx : lookup x st.objs = some (some c)) (hc : lookup c st.heap.blocks = some bc) :
    rule_of_five.destruct st x
      = .ok { heap := st.heap.released c bc, objs := remove x st.objs } := by
  simp [rule_of_five.destruct, hx, rule_of_five.dtor, delete_array_some _ hc]

theorem copy_assign_throw {st : State} {t s a : Nat} {pt : Ptr} {b : List Nat} {len : Nat}
    (ht : lookup t st.objs = some pt) (hs : lookup s st.objs = some (some a))
    (hb : lookup a st.heap.blocks = some b) (hl : strlen b = some len)
    (ha : st.heap.avail < len + 1) :
    rule_of_five.copy_assign st t s = .bad_alloc st := by
  simp [rule_of_five.copy_assign, ht, hs, rule_of_five.copy_ctor, Heap.deref, hb,
    ctor_fail st.heap hl ha]

theorem copy_assign_null_null {st : State} {t s : Nat}
    (ht : lookup t st.objs = some none) (hs : lookup s st.objs = some none) :
    rule_of_five.copy_assign st t s
      = .ok { heap := st.heap, objs := assign t none st.objs } := by
  simp [rule_of_five.copy_assign, ht, hs, rule_of_five.copy_ctor, Heap.deref,
    rule_of_five.rule_of_five, rule_of_five.dtor, Heap.delete_array]

theorem copy_assign_from_null {st : State} {t s c : Nat} {bc : List Nat}
    (ht : lookup t st.objs = some (some c)) (hs : lookup s st.objs = some none)
    (hc : lookup c st.heap.blocks = some bc) :
    rule_of_five.copy_assign st t s
      = .ok { heap := st.heap.released c bc, objs := assign t none st.objs } := by
  simp [rule_of_five.copy_assign, ht, hs, rule_of_five.copy_ctor, Heap.deref,
    rule_of_five.rule_of_five, rule_of_five.dtor, delete_array_some _ hc]

theorem copy_assign_to_null {st : State} {t s a : Nat} {b : List Nat} {len : Nat}
    (ht : lookup t st.objs = some none) (hs : lookup s st.objs = some (some a))
    (hb : lookup a st.heap.blocks = some b) (hl : strlen b = some len)
    (ha : len + 1 ≤ st.heap.avail) :
    rule_of_five.copy_assign st t s
      = .ok { heap := st.heap.pushed (b.take (len + 1))
              objs := assign t (some st.heap.next) st.objs } := by
  simp [rule_of_five.copy_assign, ht, hs, rule_of_five.copy_ctor, Heap.deref, hb,
    ctor_some st.heap hl ha, rule_of_five.dtor, Heap.delete_array]

theorem copy_assign_ok {st : State} {t s a c : Nat} {b bc : List Nat} {len : Nat}
    (ht : lookup t st.objs = some (some c)) (hs : lookup s st.objs = some (some a))
    (hb : lookup a st.heap.blocks = some b) (hl : strlen b = some len)
    (ha : len + 1 ≤ st.heap.avail)
    (hc : lookup c st.heap.blocks = some bc) (hne : c ≠ st.heap.next) :
    rule_of_five.copy_assign st t s
      = .ok { heap := (st.heap.pushed (b.take (len + 1))).released c bc
              objs := assign t (some st.heap.next) st.objs } := by
  have hc1 : lookup c (st.heap.pushed (b.take (len + 1))).blocks = some bc := by
    rw [lookup_pushed]; simp [hne, hc]
  simp [rule_of_five.copy_assign, ht, hs, rule_of_five.copy_ctor, Heap.deref, hb,
    ctor_some st.heap hl ha, rule_of_five.dtor, delete_array_some _ hc1]

theorem mem_keys_assign {α : Type} (x k : Nat) (v : α) (l : List (Nat × α)) :
    x ∈ keys (assign k v l) ↔ x = k ∨ x ∈ keys l := by
  simp only [mem_keys_iff, lookup_assign]
  by_cases e : x = k <;> simp [e]

theorem lookup_none_of_not_mem {st : State} {names : List Nat}
    (ag : ∀ x, x ∈ names ↔ x ∈ keys st.objs) {x : Nat} (h : x ∉ names) :
    lookup x st.objs = none :=
  (lookup_eq_none_iff _ _).2 (fun hm => h ((ag x).2 hm))

theorem lookup_some_of_mem {st : State} {names : List Nat}
    (ag : ∀ x, x ∈ names ↔ x ∈ keys st.objs) {x : Nat} (h : x ∈ names) :
    ∃ p, lookup x st.objs = some p :=
  (mem_keys_iff _ _).1 ((ag x).1 h)

/-- Copy construction of a new object from a live one, in a state that satisfies the
invariants: it returns or throws, never has undefined behaviour; a throw leaves the
state as it was. -/
theorem copy_construct_inv {st : State} (i : st.Inv) {x y : Nat} {p : Ptr}
    (hx : lookup x st.objs = none) (hy : lookup y st.objs = some p) :
    rule_of_five.copy_construct st x y = .bad_alloc st ∨
    ∃ st1, rule_of_five.copy_construct st x y = .ok st1 ∧ st1.Inv ∧
      ∀ z, z ∈ keys st1.objs ↔ z = x ∨ z ∈ keys st.objs := by
  have hx' : ∀ a, lookup x st.objs ≠ some (some a) := by intro a; simp [hx]
  cases p with
  | none =>
    exact Or.inr ⟨_, copy_construct_null hx hy, i.null hx', fun z => mem_keys_assign _ _ _ _⟩
  | some a =>
    obtain ⟨b, hb, tb⟩ := i.valid _ _ hy
    obtain ⟨len, hl, _⟩ := strlen_of_terminated tb
    by_cases ha : len + 1 ≤ st.heap.avail
    · exact Or.inr ⟨_, copy_construct_ok hx hy hb hl ha, i.take hx' (terminated_take hl),
        fun z => mem_keys_assign _ _ _ _⟩
    · exact Or.inl (copy_construct_throw hx hy hb hl (by omega))

/-- Copy assignment between live objects (the same object or not), in a state that
satisfies the invariants. -/
theorem copy_assign_inv {st : State} (i : st.Inv) {t s : Nat} {pt ps : Ptr}
    (ht : lookup t st.objs = some pt) (hs : lookup s st.objs = some ps) :
    rule_of_five.copy_assign st t s = .bad_alloc st ∨
    ∃ st1, rule_of_five.copy_assign st t s = .ok st1 ∧ st1.Inv ∧
      ∀ z, z ∈ keys st1.objs ↔ z ∈ keys st.objs := by
  have hk : ∀ (v : Ptr) (z : Nat), z ∈ keys (assign t v st.objs) ↔ z ∈ keys st.objs := by
    intro v z
    rw [mem_keys_assign]
    constructor
    · rintro (e | h)
      · exact e ▸ (mem_keys_iff _ _).2 ⟨pt, ht⟩
      · exact h
    · exact Or.inr
  cases ps with
  | none =>
    cases pt with
    | none =>
      exact Or.inr ⟨_, copy_assign_null_null ht hs, i.null (by intro a; simp [ht]), hk _⟩
    | some c =>
      obtain ⟨bc, hc, _⟩ := i.valid _ _ ht
      exact Or.inr ⟨_, copy_assign_from_null ht hs hc,
        ((i.release ht hc (remove t st.objs) (fun z => lookup_remove z t st.objs)).2).congr
          (i.heap_wf.released hc) (fun _ => rfl)
          (fun z => by by_cases e : z = t <;> simp [lookup_assign, lookup_remove, e]),
        hk _⟩
  | some a =>
    obtain ⟨b, hb, tb⟩ := i.valid _ _ hs
    obtain ⟨len, hl, _⟩ := strlen_of_terminated tb
    by_cases ha : len + 1 ≤ st.heap.avail
    · cases pt with
      | none =>
        exact Or.inr ⟨_, copy_assign_to_null ht hs hb hl ha,
          i.take (by intro a; simp [ht]) (terminated_take hl), hk _⟩
      | some c =>
        obtain ⟨bc, hc, _⟩ := i.valid _ _ ht
        exact Or.inr ⟨_, copy_assign_ok ht hs hb hl ha hc (i.ne_next ht),
          i.replace ht hc (terminated_take hl), hk _⟩
    · exact Or.inl (copy_assign_throw ht hs hb hl (by omega))

theorem construct_inv {st : State} (i : st.Inv) {x : Nat} (s : List Nat)
    (hx : lookup x st.objs = none) :
    rule_of_five.construct st x (literal s) = .bad_alloc st ∨
    ∃ st1, rule_of_five.construct st x (literal s) = .ok st1 ∧ st1.Inv ∧
      ∀ z, z ∈ keys st1.objs ↔ z = x ∨ z ∈ keys st.objs := by
  obtain ⟨len, hl⟩ := strlen_append_zero s
  by_cases ha : len + 1 ≤ st.heap.avail
  · exact Or.inr ⟨_, construct_ok hx hl ha,
      i.take (by intro a; simp [hx]) (terminated_take hl), fun z => mem_keys_assign _ _ _ _⟩
  · exact Or.inl (construct_throw hx hl (by omega))

theorem move_construct_inv {st : State} (i : st.Inv) {x y : Nat} {p : Ptr}
    (hx : lookup x st.objs = none) (hy : lookup y st.objs = some p) :
    ∃ st1, rule_of_five.move_construct st x y = .ok st1 ∧ st1.Inv ∧
      ∀ z, z ∈ keys st1.objs ↔ z = x ∨ z ∈ keys st.objs := by
  have hxy : x ≠ y := by
    intro e; rw [e, hy] at hx; exact Option.noConfusion hx
  refine ⟨_, move_construct_ok hx hy, ?_, ?_⟩
  · refine i.swap hxy _ (some p) (some none) ?_ ?_ ?_
    · intro a; rw [hy]
    · intro a; simp [hx]
    · intro z
      by_cases e1 : z = x <;> by_cases e2 : z = y <;> simp [lookup_assign, e1, e2]
  · intro z
    rw [mem_keys_assign, mem_keys_assign]
    constructor
    · rintro (e | e | h)
      · exact Or.inl e
      · exact Or.inr (e ▸ (mem_keys_iff _ _).2 ⟨p, hy⟩)
      · exact Or.inr h
    · rintro (e | h)
      · exact Or.inl e
      · exact Or.inr (Or.inr h)

theorem move_assign_inv {st : State} (i : st.Inv) {t s : Nat} {a b : Ptr}
    (ht : lookup t st.objs = some a) (hs : lookup s st.objs = some b) :
    ∃ st1, rule_of_five.move_assign st t s = .ok st1 ∧ st1.Inv ∧
      ∀ z, z ∈ keys st1.objs ↔ z ∈ keys st.objs := by
  refine ⟨_, move_assign_ok ht hs, ?_, ?_⟩
  · by_cases e : t = s
    · subst e
      rw [ht] at hs
      have hab : b = a := (Option.some.inj hs).symm
      subst hab
      refine i.congr i.heap_wf (fun _ => rfl) ?_
      intro z
      by_cases e1 : z = t <;> simp [lookup_assign, e1, ht]
    · refine i.swap e _ (some b) (some a) ?_ ?_ ?_
      · intro c; rw [hs]
      · intro c; rw [ht]
      · intro z
        have e' : ¬ s = t := fun h => e h.symm
        by_cases e1 : z = t <;> by_cases e2 : z = s <;> simp [lookup_assign, e1, e2, e, e']
  · intro z
    rw [mem_keys_assign, mem_keys_assign]
    constructor
    · rintro (e | e | h)
      · exact e ▸ (mem_keys_iff _ _).2 ⟨b, hs⟩
      · exact e ▸ (mem_keys_iff _ _).2 ⟨a, ht⟩
      · exact h
    · exact fun h => Or.inr (Or.inr h)

theorem destruct_inv {st : State} (i : st.Inv) {x : Nat} {p : Ptr}
    (hx : lookup x st.objs = some p) :
    ∃ st1, rule_of_five.destruct st x = .ok st1 ∧ st1.Inv ∧
      ∀ z, z ∈ keys st1.objs ↔ z ∈ keys st.objs ∧ z ≠ x := by
  cases p with
  | none =>
    exact ⟨_, destruct_null hx, i.forget (by intro a; simp [hx]),
      fun z => mem_keys_remove _ _ _⟩
  | some c =>
    obtain ⟨bc, hc, _⟩ := i.valid _ _ hx
    exact ⟨_, destruct_ok hx hc,
      (i.release hx hc (remove x st.objs) (fun z => lookup_remove z x st.objs)).1,
      fun z => mem_keys_remove _ _ _⟩

/-- One well-scoped operation from a state that satisfies the invariants: no
undefined behaviour; a throw leaves the state as it was; a return keeps the
invariants, and the live objects are the names in scope. -/
theorem step_inv {st : State} (i : st.Inv) {names names1 : List Nat}
    (ag : ∀ x, x ∈ names ↔ x ∈ keys st.objs) (op : Op) (ops : List Op)
    (hs : scope_after names (op :: ops) = some names1) :
    step st op = .bad_alloc st ∨
    ∃ st1 names2, step st op = .ok st1 ∧ st1.Inv ∧
      (∀ x, x ∈ names2 ↔ x ∈ keys st1.objs) ∧ scope_after names2 ops = some names1 := by
  cases op with
  | construct x s =>
    by_cases hx : x ∈ names
    · simp [scope_after, hx] at hs
    · simp only [scope_after, hx, if_false] at hs
      rcases construct_inv i s (lookup_none_of_not_mem ag hx) with h | ⟨st1, h1, i1, k1⟩
      · exact Or.inl h
      · exact Or.inr ⟨st1, x :: names, h1, i1, by intro z; simp [k1, ag], hs⟩
  | copy_construct x y =>
    by_cases hxy : x ∉ names ∧ y ∈ names
    · simp only [scope_after, hxy, and_self, not_false_eq_true, if_true] at hs
      obtain ⟨p, hy⟩ := lookup_some_of_mem ag hxy.2
      rcases copy_construct_inv i (lookup_none_of_not_mem ag hxy.1) hy with
        h | ⟨st1, h1, i1, k1⟩
      · exact Or.inl h
      · exact Or.inr ⟨st1, x :: names, h1, i1, by intro z; simp [k1, ag], hs⟩
    · simp [scope_after, hxy] at hs
  | move_construct x y =>
    by_cases hxy : x ∉ names ∧ y ∈ names
    · simp only [scope_after, hxy, and_self, not_false_eq_true, if_true] at hs
      obtain ⟨p, hy⟩ := lookup_some_of_mem ag hxy.2
      obtain ⟨st1, h1, i1, k1⟩ := move_construct_inv i (lookup_none_of_not_mem ag hxy.1) hy
      exact Or.inr ⟨st1, x :: names, h1, i1, by intro z; simp [k1, ag], hs⟩
    · simp [scope_after, hxy] at hs
  | copy_assign t s =>
    by_cases hts : t ∈ names ∧ s ∈ names
    · simp only [scope_after, hts, and_self, if_true] at hs
      obtain ⟨pt, ht⟩ := lookup_some_of_mem ag hts.1
      obtain ⟨ps, hs'⟩ := lookup_some_of_mem ag hts.2
      rcases copy_assign_inv i ht hs' with h | ⟨st1, h1, i1, k1⟩
      · exact Or.inl h
      · exact Or.inr ⟨st1, names, h1, i1, by intro z; simp [k1, ag], hs⟩
    · simp [scope_after, hts] at hs
  | move_assign t s =>
    by_cases hts : t ∈ names ∧ s ∈ names
    · simp only [scope_after, hts, and_self, if_true] at hs
      obtain ⟨pt, ht⟩ := lookup_some_of_mem ag hts.1
      obtain ⟨ps, hs'⟩ := lookup_some_of_mem ag hts.2
      obtain ⟨st1, h1, i1, k1⟩ := move_assign_inv i ht hs'
      exact Or.inr ⟨st1, names, h1, i1, by intro z; simp [k1, ag], hs⟩
    · simp [scope_after, hts] at hs
  | destruct x =>
    by_cases hx : x ∈ names
    · simp only [scope_after, hx, if_true] at hs
      obtain ⟨p, hp⟩ := lookup_some_of_mem ag hx
      obtain ⟨st1, h1, i1, k1⟩ := destruct_inv i hp
      exact Or.inr ⟨st1, names.filter (· ≠ x), h1, i1, by intro z; simp [k1, ag], hs⟩
    · simp [scope_after, hx] at hs

theorem scope_after_append {names names1 : List Nat} {pre post : List Op}
    (h : scope_after names (pre ++ post) = some names1) :
    ∃ names2, scope_after names pre = some names2 := by
  induction pre generalizing names with
  | nil => exact ⟨names, rfl⟩
  | cons op pre ih =>
    cases op <;> simp only [List.cons_append, scope_after] at h ⊢ <;>
      split_ifs at h ⊢ <;> exact ih h

theorem State.init_inv (avail : Nat) : (State.init avail).Inv := by
  refine ⟨⟨?_, ?_, ?_⟩, ?_, ?_, ?_⟩ <;>
    simp [State.init, Heap.empty, keys, lookup, Heap.live]

/-- A well-scoped run from a state that satisfies the invariants returns or throws,
and the state it leaves satisfies the invariants; when it returns, the live objects
are the names in scope. -/
theorem exec_inv (ops : List Op) {st : State} (i : st.Inv) {names names1 : List Nat}
    (ag : ∀ x, x ∈ names ↔ x ∈ keys st.objs)
    (hs : scope_after names ops = some names1) :
    ∃ st1, st1.Inv ∧ (exec st ops = .bad_alloc st1 ∨
      (exec st ops = .ok st1 ∧ ∀ x, x ∈ names1 ↔ x ∈ keys st1.objs)) := by
  induction ops generalizing st names with
  | nil =>
    simp only [scope_after, Option.some.injEq] at hs
    subst hs
    exact ⟨st, i, Or.inr ⟨rfl, ag⟩⟩
  | cons op ops ih =>
    rcases step_inv i ag op ops hs with h | ⟨st1, names2, h1, i1, ag1, hs1⟩
    · exact ⟨st, i, Or.inl (by simp [exec, h])⟩
    · obtain ⟨st2, i2, h2⟩ := ih i1 ag1 hs1
      exact ⟨st2, i2, by simpa [exec, h1] using h2⟩

theorem State.Inv.no_blocks {st : State} (i : st.Inv) (h : st.objs = []) :
    st.heap.blocks = [] := by
  rcases hb : st.heap.blocks with _ | ⟨⟨a, b⟩, l⟩
  · rfl
  · obtain ⟨x, hx⟩ := i.owned a b (by simp [hb, lookup])
    simp [h, lookup] at hx

/-! ## Reading objects -/

theorem content_null {st : State} {u : Nat} (h : lookup u st.objs = some none) :
    st.content u = some [] := by
  simp [State.content, h, operator_const_char_ptr, Heap.c_str]

theorem content_block {st : State} {u a : Nat} {b : List Nat}
    (h : lookup u st.objs = some (some a)) (hb : lookup a st.heap.blocks = some b) :
    st.content u = (strlen b).map (fun n => b.take n) := by
  simp [State.content, h, operator_const_char_ptr, Heap.c_str, hb]

theorem content_congr {st st1 : State} {u : Nat}
    (ho : lookup u st1.objs = lookup u st.objs)
    (hb : ∀ a, lookup u st.objs = some (some a) →
      lookup a st1.heap.blocks = lookup a st.heap.blocks) :
    st1.content u = st.content u := by
  unfold State.content
  rw [ho]
  rcases h : lookup u st.objs with _ | _ | a
  · rfl
  · rfl
  · simp [operator_const_char_ptr, Heap.c_str, hb a h]

/-- The blocks of the objects other than `t` are neither the block `t` owns nor the
next fresh block. -/
theorem State.Inv.other_block {st : State} (i : st.Inv) {t u a : Nat} {pt : Ptr}
    (ht : lookup t st.objs = some pt) (hu : u ≠ t) (h : lookup u st.objs = some (some a)) :
    a ≠ st.heap.next ∧ some a ≠ pt := by
  refine ⟨i.ne_next h, ?_⟩
  intro e
  rw [← e] at ht
  exact hu (i.exclusive _ _ _ h ht)

/-- Copy assignment between live objects (the same object or not) in a state that
satisfies the invariants: either the allocation of the copy fails and the state is as
before, or the assignment returns a state that satisfies the invariants, in which the
other objects are untouched, `t` reads what `s` read, the block `t` owned is released
once, and the handle of `t` is fresh. -/
theorem copy_assign_spec {st : State} (i : st.Inv) {t s : Nat} {pt ps : Ptr}
    (ht : lookup t st.objs = some pt) (hs : lookup s st.objs = some ps) :
    (rule_of_five.copy_assign st t s = .bad_alloc st ∧
      ∃ a b len, ps = some a ∧ lookup a st.heap.blocks = some b ∧ strlen b = some len ∧
        st.heap.avail < len + 1) ∨
    ∃ st1, rule_of_five.copy_assign st t s = .ok st1 ∧ st1.Inv ∧
      (∀ u, u ≠ t → lookup u st1.objs = lookup u st.objs) ∧
      (∀ u, u ≠ t → st1.content u = st.content u) ∧
      st1.content t = st.content s ∧
      st1.heap.live + (if pt = none then 0 else 1)
        = st.heap.live + (if ps = none then 0 else 1) ∧
      st1.heap.deletes = st.heap.deletes + (if pt = none then 0 else 1) ∧
      (∀ c, pt = some c → lookup c st1.heap.blocks = none) ∧
      (∀ q, lookup t st1.objs = some (some q) → lookup q st.heap.blocks = none) := by
  have hobj : ∀ (v : Ptr) (u : Nat), u ≠ t →
      lookup u (assign t v st.objs) = lookup u st.objs := by
    intro v u hu; simp [lookup_assign, hu]
  rcases copy_assign_inv i ht hs with hthrow | ⟨st1, hok, i1, _⟩
  · left
    refine ⟨hthrow, ?_⟩
    cases ps with
    | none =>
      cases pt with
      | none => rw [copy_assign_null_null ht hs] at hthrow; exact Outcome.noConfusion hthrow
      | some c =>
        obtain ⟨bc, hc, _⟩ := i.valid _ _ ht
        rw [copy_assign_from_null ht hs hc] at hthrow; exact Outcome.noConfusion hthrow
    | some a =>
      obtain ⟨b, hb, tb⟩ := i.valid _ _ hs
      obtain ⟨len, hl, _⟩ := strlen_of_terminated tb
      refine ⟨a, b, len, rfl, hb, hl, ?_⟩
      by_contra hfit
      have ha : len + 1 ≤ st.heap.avail := by omega
      cases pt with
      | none =>
        rw [copy_assign_to_null ht hs hb hl ha] at hthrow; exact Outcome.noConfusion hthrow
      | some c =>
        obtain ⟨bc, hc, _⟩ := i.valid _ _ ht
        rw [copy_assign_ok ht hs hb hl ha hc (i.ne_next ht)] at hthrow
        exact Outcome.noConfusion hthrow
  · right
    refine ⟨st1, hok, i1, ?_⟩
    cases ps with
    | none =>
      have hcs : st.content s = some [] := content_null hs
      cases pt with
      | none =>
        rw [copy_assign_null_null ht hs] at hok
        cases hok
        refine ⟨hobj _, ?_, ?_, ?_, ?_, ?_, ?_⟩
        · intro u hu
          exact content_congr (hobj _ u hu) (fun _ _ => rfl)
        · rw [hcs]; exact content_null (by simp [lookup_assign])
        · simp
        · simp
        · intro c hc; cases hc
        · intro q hq; simp [lookup_assign] at hq
      | some c =>
        obtain ⟨bc, hc, _⟩ := i.valid _ _ ht
        rw [copy_assign_from_null ht hs hc] at hok
        cases hok
        refine ⟨hobj _, ?_, ?_, ?_, ?_, ?_, ?_⟩
        · intro u hu
          refine content_congr (hobj _ u hu) ?_
          intro a ha
          have := (i.other_block ht hu ha).2
          have hac : a ≠ c := fun e => this (by rw [e])
          simp [lookup_released, hac]
        · rw [hcs]; exact content_null (by simp [lookup_assign])
        · have := i.heap_wf.live_released hc
          simp; omega
        · simp [Heap.released]
        · intro c1 hc1
          cases hc1
          simp [lookup_released]
        · intro q hq; simp [lookup_assign] at hq
    | some a =>
      obtain ⟨b, hb, tb⟩ := i.valid _ _ hs
      obtain ⟨len, hl, hlen⟩ := strlen_of_terminated tb
      have htake : b.take (len + 1) = b := take_of_terminated hl tb
      have hcs : st.content s = some (b.take len) := by simp [content_block hs hb, hl]
      by_cases ha : len + 1 ≤ st.heap.avail
      · cases pt with
        | none =>
          rw [copy_assign_to_null ht hs hb hl ha, htake] at hok
          cases hok
          refine ⟨hobj _, ?_, ?_, ?_, ?_, ?_, ?_⟩
          · intro u hu
            refine content_congr (hobj _ u hu) ?_
            intro a1 ha1
            simp [lookup_pushed, (i.other_block ht hu ha1).1]
          · have hh : lookup t (assign t (some st.heap.next) st.objs)
                = some (some st.heap.next) := by simp [lookup_assign]
            have hbk : lookup st.heap.next (st.heap.pushed b).blocks = some b := by
              simp [lookup_pushed]
            rw [hcs, content_block hh hbk]
            simp [hl]
          · simp [i.heap_wf.live_pushed]
          · simp [Heap.pushed]
          · intro c hc; cases hc
          · intro q hq
            simp [lookup_assign] at hq
            rw [← hq]; exact i.heap_wf.lookup_next
        | some c =>
          obtain ⟨bc, hc, _⟩ := i.valid _ _ ht
          have hne := i.ne_next ht
          have hne1 : ¬ st.heap.next = c := fun e => hne e.symm
          have hc1 : lookup c (st.heap.pushed b).blocks = some bc := by
            rw [lookup_pushed]; simp [hne, hc]
          rw [copy_assign_ok ht hs hb hl ha hc hne, htake] at hok
          cases hok
          refine ⟨hobj _, ?_, ?_, ?_, ?_, ?_, ?_⟩
          · intro u hu
            refine content_congr (hobj _ u hu) ?_
            intro a1 ha1
            have h2 := (i.other_block ht hu ha1).2
            have hac : a1 ≠ c := fun e => h2 (by rw [e])
            simp [lookup_pushed, lookup_released, (i.other_block ht hu ha1).1, hac]
          · have hh : lookup t (assign t (some st.heap.next) st.objs)
                = some (some st.heap.next) := by simp [lookup_assign]
            have hbk : lookup st.heap.next ((st.heap.pushed b).released c bc).blocks
                = some b := by
              simp [lookup_pushed, lookup_released, hne1]
            rw [hcs, content_block hh hbk]
            simp [hl]
          · have h1 := (i.heap_wf.pushed b).live_released hc1
            have h2 := i.heap_wf.live_pushed b
            simp; omega
          · simp [Heap.released, Heap.pushed]
          · intro c1 hc1
            cases hc1
            simp [lookup_released]
          · intro q hq
            simp [lookup_assign] at hq
            rw [← hq]; exact i.heap_wf.lookup_next
      · rw [copy_assign_throw ht hs hb hl (by omega)] at hok
        exact Outcome.noConfusion hok

theorem inv_of_exec (avail : Nat) (ops : List Op) (names : List Nat) {st : State}
    (h : exec (State.init avail) ops = .ok st) (hs : scope_after [] ops = some names) :
    st.Inv := by
  obtain ⟨st1, i1, h1 | ⟨h1, _⟩⟩ :=
    exec_inv ops (State.init_inv avail) (by simp [State.init, keys]) hs
  · rw [h] at h1; exact Outcome.noConfusion h1
  · rw [h] at h1; cases h1; exact i1

theorem one_object_inv : one_object.Inv :=
  inv_of_exec 100 [.construct 1 [97, 98, 99]] [1] rfl rfl

theorem two_objects_inv : two_objects.Inv :=
  inv_of_exec 100 [.construct 1 [100, 101, 102], .construct 2 [97, 98, 99]] [2, 1]
    rfl rfl

theorem two_objects_full_inv : two_objects_full.Inv :=
  inv_of_exec 8 [.construct 1 [100, 101, 102], .construct 2 [97, 98, 99]] [2, 1]
    rfl rfl

/-- The destructor of a live object in a state that satisfies the invariants returns,
keeps the invariants and leaves what the other objects read. -/
theorem destruct_spec {st : State} (i : st.Inv) {x : Nat} {p : Ptr}
    (hx : lookup x st.objs = some p) :
    ∃ st1, rule_of_five.destruct st x = .ok st1 ∧ st1.Inv ∧
      ∀ u, u ≠ x → st1.content u = st.content u := by
  obtain ⟨st1, hok, i1, _⟩ := destruct_inv i hx
  refine ⟨st1, hok, i1, ?_⟩
  intro u hu
  cases p with
  | none =>
    rw [destruct_null hx] at hok
    cases hok
    exact content_congr (by simp [lookup_remove, hu]) (fun _ _ => rfl)
  | some c =>
    obtain ⟨bc, hc, _⟩ := i.valid _ _ hx
    rw [destruct_ok hx hc] at hok
    cases hok
    refine content_congr (by simp [lookup_remove, hu]) ?_
    intro a ha
    have h2 := (i.other_block hx hu ha).2
    have hac : a ≠ c := fun e => h2 (by rw [e])
    simp [lookup_released, hac]

theorem new_array_none {h : Heap} {n : Nat} (hf : h.new_array n = none) : h.avail < n := by
  by_contra hc
  have : n ≤ h.avail := by omega
  simp [Heap.new_array, this] at hf

theorem three_copy_assign_self {st : State} {t : Nat} {pt : Ptr}
    (ht : lookup t st.objs = some pt) :
    rule_of_three.copy_assign st t t = .ok st := by
  simp [rule_of_three.copy_assign, ht]

theorem three_copy_assign_throw {st : State} {t s a : Nat} {pt : Ptr} {b : List Nat}
    {len : Nat} (hts : t ≠ s)
    (ht : lookup t st.objs = some pt) (hs : lookup s st.objs = some (some a))
    (hb : lookup a st.heap.blocks = some b) (hl : strlen b = some len)
    (ha : st.heap.avail < len + 1) :
    rule_of_three.copy_assign st t s = .bad_alloc st := by
  have : ¬ (len + 1 ≤ st.heap.avail) := by omega
  simp [rule_of_three.copy_assign, ht, hs, hts, Heap.deref, hb, hl, Heap.new_array, this]

theorem three_copy_assign_ok {st : State} {t s a c : Nat} {b bc : List Nat} {len : Nat}
    (hts : t ≠ s)
    (ht : lookup t st.objs = some (some c)) (hs : lookup s st.objs = some (some a))
    (hb : lookup a st.heap.blocks = some b) (hl : strlen b = some len)
    (ha : len + 1 ≤ st.heap.avail)
    (hc : lookup c st.heap.blocks = some bc) (hne : c ≠ st.heap.next) :
    rule_of_three.copy_assign st t s
      = .ok { heap := (st.heap.pushed (b.take (len + 1))).released c bc
              objs := assign t (some st.heap.next) st.objs } := by
  have hc1 : lookup c (st.heap.pushed (b.take (len + 1))).blocks = some bc := by
    rw [lookup_pushed]; simp [hne, hc]
  have hlen : len + 1 ≤ b.length := strlen_lt hl
  have hd := delete_array_some _ hc1
  simp only [Heap.pushed, List.length_take, min_eq_left hlen] at hd
  simp [rule_of_three.copy_assign, ht, hs, hts, Heap.deref, hb, hl, Heap.new_array, ha,
    Heap.memcpy, lookup, assign, remove, hlen, List.take_of_length_le, hd, Heap.pushed]

/-! ## The claims -/

/-- C1: round trip of construct and read. For every byte string `s` without a null
byte, constructing a `rule_of_five` named `x` from the literal `s` (when the store can
hand out `|s| + 1` bytes) returns; the new object reads through the accessor as
exactly `s`, of visible length `|s|`; and it owns the block `s ++ [0]`: exactly
`|s| + 1` bytes, the last of which is the null terminator. -/
theorem construct_read_round_trip (st : State) (x : Nat) (s : List Nat)
    (hx : lookup x st.objs = none) (h0 : 0 ∉ s) (ha : s.length + 1 ≤ st.heap.avail) :
    ∃ st1 a b, rule_of_five.construct st x (literal s) = .ok st1 ∧
      lookup x st1.objs = some (some a) ∧
      lookup a st1.heap.blocks = some b ∧
      st1.content x = some s ∧
      st1.heap.c_str (operator_const_char_ptr (some a)) = some s ∧
      strlen b = some s.length ∧
      b = s ++ [0] ∧ b.length = s.length + 1 ∧ b.getLast? = some 0 := by
  have hl := strlen_literal s h0
  have hk : rule_of_five.construct st x (literal s)
      = .ok { heap := st.heap.pushed (s ++ [0])
              objs := assign x (some st.heap.next) st.objs } := by
    have hk1 := construct_ok hx hl ha
    have htk : (s ++ [0]).take (s.length + 1) = s ++ [0] :=
      List.take_of_length_le (by simp)
    rw [htk] at hk1
    exact hk1
  have hh : lookup x (assign x (some st.heap.next) st.objs) = some (some st.heap.next) := by
    simp [lookup_assign]
  have hb : lookup st.heap.next (st.heap.pushed (s ++ [0])).blocks = some (s ++ [0]) := by
    simp [lookup_pushed]
  have hc : State.content { heap := st.heap.pushed (s ++ [0])
                            objs := assign x (some st.heap.next) st.objs } x = some s := by
    rw [content_block hh hb]; simp [hl]
  refine ⟨_, st.heap.next, s ++ [0], hk, hh, hb, hc, ?_, hl, rfl, by simp, by simp⟩
  simpa [State.content, hh] using hc

/-- Witness of C1 on the literal `"abc"` in the empty state. -/
theorem construct_read_round_trip_witness :
    ∃ st1 a b, rule_of_five.construct (State.init 100) 1 (literal [97, 98, 99]) = .ok st1 ∧
      lookup 1 st1.objs = some (some a) ∧
      lookup a st1.heap.blocks = some b ∧
      st1.content 1 = some [97, 98, 99] ∧
      st1.heap.c_str (operator_const_char_ptr (some a)) = some [97, 98, 99] ∧
      strlen b = some 3 ∧
      b = [97, 98, 99] ++ [0] ∧ b.length = 3 + 1 ∧ b.getLast? = some 0 :=
  construct_read_round_trip (State.init 100) 1 [97, 98, 99] (by decide) (by decide)
    (by decide)

/-- C3: move construction empties the source. For every live object `a` holding the
handle `p`, move-constructing a new object `b` from it returns; `b` holds exactly `p`
and reads what `a` read; `a` holds the null handle and reads as empty; the free store
is unchanged, so nothing was allocated and nothing released. -/
theorem move_construct_empties_source (st : State) (a b : Nat) (p : Ptr)
    (ha : lookup a st.objs = some p) (hb : lookup b st.objs = none) :
    ∃ st1, rule_of_five.move_construct st b a = .ok st1 ∧
      lookup b st1.objs = some p ∧ st1.content b = st.content a ∧
      lookup a st1.objs = some none ∧ st1.content a = some [] ∧
      st1.heap = st.heap := by
  have hab : a ≠ b := by
    intro e; rw [e, hb] at ha; exact Option.noConfusion ha
  refine ⟨_, move_construct_ok hb ha, ?_, ?_, ?_, ?_, rfl⟩
  · simp [lookup_assign]
  · simp [State.content, lookup_assign, ha]
  · simp [lookup_assign, hab]
  · exact content_null (by simp [lookup_assign, hab])

/-- Witness of C3: `p` is constructed from `"abc"` and `q` is move-constructed from
it. -/
theorem move_construct_empties_source_witness :
    ∃ st1, rule_of_five.move_construct one_object 2 1 = .ok st1 ∧
      lookup 2 st1.objs = some (some 0) ∧ st1.content 2 = one_object.content 1 ∧
      lookup 1 st1.objs = some none ∧ st1.content 1 = some [] ∧
      st1.heap = one_object.heap :=
  move_construct_empties_source one_object 1 2 (some 0) (by decide) (by decide)

/-- C7, as stated, fails: after `t` is constructed from `"def"`, `s` from `"abc"`, and
`t = std::move(s)`, the source `s` does not hold the null handle but the block `t`
owned, and reads `"def"`, not the empty string. -/
theorem move_assign_source_not_emptied :
    ∃ st1, exec (State.init 100)
        [.construct 1 [100, 101, 102], .construct 2 [97, 98, 99], .move_assign 1 2]
          = .ok st1 ∧
      lookup 2 st1.objs = some (some 0) ∧ lookup 2 st1.objs ≠ some none ∧
      st1.content 2 = some [100, 101, 102] ∧ st1.content 2 ≠ some [] ∧
      st1.content 1 = some [97, 98, 99] :=
  ⟨_, rfl, by decide, by decide, by decide, by decide, by decide⟩

/-- C7, amended: for every pair of distinct live objects `t` and `s`, `t = std::move(s)`
returns; `t` holds the handle `s` held and reads what `s` read; `s` holds the handle
`t` held and reads what `t` read (so `s` holds the null handle exactly when `t` held it
before); the free store is unchanged. -/
theorem move_assign_exchanges (st : State) (t s : Nat) (pt ps : Ptr) (hts : t ≠ s)
    (ht : lookup t st.objs = some pt) (hs : lookup s st.objs = some ps) :
    ∃ st1, rule_of_five.move_assign st t s = .ok st1 ∧
      lookup t st1.objs = some ps ∧ st1.content t = st.content s ∧
      lookup s st1.objs = some pt ∧ st1.content s = st.content t ∧
      (lookup s st1.objs = some none ↔ pt = none) ∧
      st1.heap = st.heap := by
  have hst : ¬ s = t := fun e => hts e.symm
  refine ⟨_, move_assign_ok ht hs, ?_, ?_, ?_, ?_, ?_, rfl⟩
  · simp [lookup_assign, hts]
  · simp [State.content, lookup_assign, hts, hs]
  · simp [lookup_assign]
  · simp [State.content, lookup_assign, ht]
  · simp [lookup_assign]

/-- Witness of the amended C7 on `t = "def"`, `s = "abc"`. -/
theorem move_assign_exchanges_witness :
    ∃ st1, rule_of_five.move_assign two_objects 1 2 = .ok st1 ∧
      lookup 1 st1.objs = some (some 1) ∧ st1.content 1 = two_objects.content 2 ∧
      lookup 2 st1.objs = some (some 0) ∧ st1.content 2 = two_objects.content 1 ∧
      (lookup 2 st1.objs = some none ↔ some 0 = none) ∧
      st1.heap = two_objects.heap :=
  move_assign_exchanges two_objects 1 2 (some 0) (some 1) (by decide) (by decide)
    (by decide)

/-- C8, as stated, fails: constructing with the default argument `""` in the empty
state allocates: the object holds the block at address 0, not the null handle, and one
block is live where none was. -/
theorem default_construct_allocates :
    ∃ st1, rule_of_five.construct (State.init 100) 1 default_arg = .ok st1 ∧
      lookup 1 st1.objs = some (some 0) ∧ lookup 1 st1.objs ≠ some none ∧
      st1.heap.blocks = [(0, [0])] ∧ (State.init 100).heap.blocks = [] ∧
      st1.heap.news = 1 :=
  ⟨_, rfl, by decide, by decide, by decide, by decide, by decide⟩

/-- C8, amended: a `rule_of_five` constructed with the default argument `""` (when the
store can hand out one byte) reads as the empty string, of zero length, and owns a
freshly allocated block of one byte, the terminator; the allocated blocks after the
construction are those before it and this one. -/
theorem default_construct_one_byte (st : State) (x : Nat) (w : st.heap.WF)
    (hx : lookup x st.objs = none) (ha : 1 ≤ st.heap.avail) :
    ∃ st1, rule_of_five.construct st x default_arg = .ok st1 ∧
      lookup x st1.objs = some (some st.heap.next) ∧
      st1.content x = some [] ∧
      lookup st.heap.next st.heap.blocks = none ∧
      st1.heap.blocks = (st.heap.next, [0]) :: st.heap.blocks ∧
      st1.heap.live = st.heap.live + 1 ∧
      st1.heap.news = st.heap.news + 1 ∧ st1.heap.deletes = st.heap.deletes := by
  have hl : strlen [0] = some 0 := by simp [strlen]
  have hk := construct_ok hx hl (by simpa using ha)
  simp only [zero_add, List.take_succ_cons, List.take_zero] at hk
  have hh : lookup x (assign x (some st.heap.next) st.objs) = some (some st.heap.next) := by
    simp [lookup_assign]
  have hb : lookup st.heap.next (st.heap.pushed [0]).blocks = some [0] := by
    simp [lookup_pushed]
  refine ⟨_, hk, hh, ?_, w.lookup_next, w.pushed_blocks _, w.live_pushed _, rfl, rfl⟩
  rw [content_block hh hb]; simp [strlen]

/-- Witness of the amended C8 in the empty state. -/
theorem default_construct_one_byte_witness :
    ∃ st1, rule_of_five.construct (State.init 100) 1 default_arg = .ok st1 ∧
      lookup 1 st1.objs = some (some (State.init 100).heap.next) ∧
      st1.content 1 = some [] ∧
      lookup (State.init 100).heap.next (State.init 100).heap.blocks = none ∧
      st1.heap.blocks = ((State.init 100).heap.next, [0]) :: (State.init 100).heap.blocks ∧
      st1.heap.live = (State.init 100).heap.live + 1 ∧
      st1.heap.news = (State.init 100).heap.news + 1 ∧
      st1.heap.deletes = (State.init 100).heap.deletes :=
  default_construct_one_byte (State.init 100) 1 (State.init_inv 100).heap_wf (by decide)
    (by decide)

/-- C9: no double free and no leak. Take any sequence of operations on `rule_of_five`
objects that is well scoped from the empty scope (objects are declared once, used and
destroyed only while in scope, destroyed at most once), run from the empty state with
any amount of memory. Then every prefix of it returns or stops at a `std::bad_alloc`,
never in undefined behaviour, so no destructor releases a block that is not live; the
state reached satisfies the invariants: every handle held is a live terminated block,
every live block is owned by an object, no two objects hold the same block, and the
counters account for the live blocks. When the whole sequence returns with every
object destroyed, no object and no block is left and as many blocks were released as
were allocated. -/
theorem no_double_free_no_leak (avail : Nat) (ops : List Op) (names : List Nat)
    (hs : scope_after [] ops = some names) :
    (∀ pre, pre <+: ops →
      ∃ st, (exec (State.init avail) pre = .ok st ∨
             exec (State.init avail) pre = .bad_alloc st) ∧
        st.Inv ∧
        (∀ a b, lookup a st.heap.blocks = some b →
          ∃ x, lookup x st.objs = some (some a) ∧
            ∀ y, lookup y st.objs = some (some a) → y = x) ∧
        st.heap.news = st.heap.deletes + st.heap.live) ∧
    (names = [] → ∀ st, exec (State.init avail) ops = .ok st →
      st.objs = [] ∧ st.heap.blocks = [] ∧ st.heap.live = 0 ∧
      st.heap.news = st.heap.deletes) := by
  have hag : ∀ x, x ∈ ([] : List Nat) ↔ x ∈ keys (State.init avail).objs := by
    simp [State.init, keys]
  constructor
  · rintro pre ⟨post, rfl⟩
    obtain ⟨names2, hs2⟩ := scope_after_append hs
    obtain ⟨st, i, h⟩ := exec_inv pre (State.init_inv avail) hag hs2
    refine ⟨st, ?_, i, ?_, i.heap_wf.count⟩
    · rcases h with h | ⟨h, _⟩
      · exact Or.inr h
      · exact Or.inl h
    · intro a b hb
      obtain ⟨x, hx⟩ := i.owned a b hb
      exact ⟨x, hx, fun y hy => i.exclusive _ _ _ hy hx⟩
  · intro hn st hst
    subst hn
    obtain ⟨st1, i1, h1 | ⟨h1, ag1⟩⟩ := exec_inv ops (State.init_inv avail) hag hs
    · rw [hst] at h1; exact Outcome.noConfusion h1
    · rw [hst] at h1
      cases h1
      have ho : st.objs = [] := by
        rcases hl : st.objs with _ | ⟨⟨x, p⟩, l⟩
        · rfl
        · have := (ag1 x).2 (by simp [hl, keys])
          simp at this
      have hb := i1.no_blocks ho
      have hc := i1.heap_wf.count
      simp only [Heap.live, hb, List.length_nil, add_zero] at hc ⊢
      exact ⟨ho, trivial, trivial, hc⟩

/-- Witness of C9 on the function `main`. -/
theorem no_double_free_no_leak_witness :
    (∀ pre, pre <+: main →
      ∃ st, (exec (State.init 100) pre = .ok st ∨
             exec (State.init 100) pre = .bad_alloc st) ∧
        st.Inv ∧
        (∀ a b, lookup a st.heap.blocks = some b →
          ∃ x, lookup x st.objs = some (some a) ∧
            ∀ y, lookup y st.objs = some (some a) → y = x) ∧
        st.heap.news = st.heap.deletes + st.heap.live) ∧
    (([] : List Nat) = [] → ∀ st, exec (State.init 100) main = .ok st →
      st.objs = [] ∧ st.heap.blocks = [] ∧ st.heap.live = 0 ∧
      st.heap.news = st.heap.deletes) :=
  no_double_free_no_leak 100 main [] (by decide)

/-- C4: copy assignment replaces the content of the target and releases its old
storage exactly once. In a state that satisfies the invariants, for distinct live
objects `t` and `s` (the store being able to hand out the bytes of the block of `s`),
`t = s` returns; `t` reads what `s` read; `s` keeps its handle and what it reads; the
handle of `t`, when not null, is a block that was not allocated before and is not the
handle of `s`; and the block `t` owned before is released: it is no longer live, the
count of releases went up by exactly one, and no live object holds it. -/
theorem copy_assign_replaces_and_releases (st : State) (i : st.Inv) (t s : Nat)
    (pt ps : Ptr) (hts : t ≠ s)
    (ht : lookup t st.objs = some pt) (hs : lookup s st.objs = some ps)
    (hfit : ∀ a b, ps = some a → lookup a st.heap.blocks = some b →
      b.length ≤ st.heap.avail) :
    ∃ st1, rule_of_five.copy_assign st t s = .ok st1 ∧ st1.Inv ∧
      st1.content t = st.content s ∧
      lookup s st1.objs = some ps ∧ st1.content s = st.content s ∧
      (∀ q, lookup t st1.objs = some (some q) →
        lookup q st.heap.blocks = none ∧ lookup s st1.objs ≠ some (some q)) ∧
      (∀ c, pt = some c →
        lookup c st1.heap.blocks = none ∧
        st1.heap.deletes = st.heap.deletes + 1 ∧
        ∀ y, lookup y st1.objs ≠ some (some c)) := by
  have hst : s ≠ t := fun e => hts e.symm
  rcases copy_assign_spec i ht hs with ⟨_, a, b, len, hps, hb, hl, hav⟩ |
    ⟨st1, hok, i1, hobj, hcont, hct, _, hdel, hrel, hfresh⟩
  · obtain ⟨b1, hb1, tb1⟩ := i.valid s a (by rw [hs, hps])
    rw [hb] at hb1
    cases hb1
    obtain ⟨len1, hl1, hlen1⟩ := strlen_of_terminated tb1
    rw [hl] at hl1
    cases hl1
    have := hfit a b hps hb
    omega
  · refine ⟨st1, hok, i1, hct, ?_, hcont s hst, ?_, ?_⟩
    · rw [hobj s hst, hs]
    · intro q hq
      refine ⟨hfresh q hq, ?_⟩
      intro hsq
      exact hts (i1.exclusive _ _ _ hq hsq)
    · intro c hc
      refine ⟨hrel c hc, by simp [hdel, hc], ?_⟩
      intro y hy
      obtain ⟨bc, hbc, _⟩ := i1.valid _ _ hy
      rw [hrel c hc] at hbc
      exact Option.noConfusion hbc

/-- Witness of C4 on `t = "def"`, `s = "abc"`. -/
theorem copy_assign_replaces_and_releases_witness :
    ∃ st1, rule_of_five.copy_assign two_objects 1 2 = .ok st1 ∧ st1.Inv ∧
      st1.content 1 = two_objects.content 2 ∧
      lookup 2 st1.objs = some (some 1) ∧ st1.content 2 = two_objects.content 2 ∧
      (∀ q, lookup 1 st1.objs = some (some q) →
        lookup q two_objects.heap.blocks = none ∧ lookup 2 st1.objs ≠ some (some q)) ∧
      (∀ c, some 0 = some c →
        lookup c st1.heap.blocks = none ∧
        st1.heap.deletes = two_objects.heap.deletes + 1 ∧
        ∀ y, lookup y st1.objs ≠ some (some c)) :=
  copy_assign_replaces_and_releases two_objects two_objects_inv 1 2 (some 0) (some 1)
    (by decide) (by decide) (by decide)
    (by
      intro a b ha hb
      cases ha
      have hb1 : some [97, 98, 99, 0] = some b := hb
      cases hb1
      decide)

/-- C5: strong exception safety of copy assignment. For live objects `t` and `s`, `s`
holding a terminated block, if the allocation made during `t = s` fails, then
`rule_of_five::operator=` throws `std::bad_alloc` and the state left behind is exactly
the state before the call: the handles and contents of `t` and of `s`, the live
blocks and the counters are what they were, so nothing was released and nothing
leaked. The same holds for `rule_of_three::operator=` when `t` and `s` are different
objects; on self-assignment it returns at once, without allocating, the state
unchanged. -/
theorem copy_assign_strong_guarantee (st : State) (t s a : Nat) (pt : Ptr)
    (b : List Nat) (len : Nat)
    (ht : lookup t st.objs = some pt) (hs : lookup s st.objs = some (some a))
    (hb : lookup a st.heap.blocks = some b) (hl : strlen b = some len)
    (hfail : st.heap.new_array (len + 1) = none) :
    rule_of_five.copy_assign st t s = .bad_alloc st ∧
    (t ≠ s → rule_of_three.copy_assign st t s = .bad_alloc st) ∧
    (t = s → rule_of_three.copy_assign st t s = .ok st) := by
  have hav := new_array_none hfail
  refine ⟨copy_assign_throw ht hs hb hl hav, ?_, ?_⟩
  · intro hts
    exact three_copy_assign_throw hts ht hs hb hl hav
  · intro hts
    subst hts
    exact three_copy_assign_self ht

/-- Witness of C5 on `t = "def"`, `s = "abc"` with a store that has nothing left. -/
theorem copy_assign_strong_guarantee_witness :
    rule_of_five.copy_assign two_objects_full 1 2 = .bad_alloc two_objects_full ∧
    (1 ≠ 2 → rule_of_three.copy_assign two_objects_full 1 2 = .bad_alloc two_objects_full) ∧
    (1 = 2 → rule_of_three.copy_assign two_objects_full 1 2 = .ok two_objects_full) :=
  copy_assign_strong_guarantee two_objects_full 1 2 1 (some 0) [97, 98, 99, 0] 3
    (by decide) (by decide) (by decide) (by decide) (by decide)

/-- C6: self-assignment safety. In a state that satisfies the invariants, for every
live object `a` (holding a block or the null handle): `a = a` either returns or, when
the store cannot hand out the bytes of the copy, throws `std::bad_alloc`; it returns
when the store can; and in the state it leaves, `a` reads what it read, the
invariants hold (`a` holds a live terminated block or the null handle, no block is
leaked, none released twice), and as many blocks are live as before.
`a = std::move(a)` returns, `a` holds the handle it held and reads what it read, and
the free store is unchanged. -/
theorem self_assignment_safe (st : State) (i : st.Inv) (a : Nat) (p : Ptr)
    (ha : lookup a st.objs = some p) :
    (∃ st1, (rule_of_five.copy_assign st a a = .ok st1 ∨
             rule_of_five.copy_assign st a a = .bad_alloc st1) ∧
      ((∀ c b, p = some c → lookup c st.heap.blocks = some b → b.length ≤ st.heap.avail) →
        rule_of_five.copy_assign st a a = .ok st1) ∧
      st1.content a = st.content a ∧ st1.Inv ∧
      (∃ q, lookup a st1.objs = some q ∧
        ∀ c, q = some c → ∃ b, lookup c st1.heap.blocks = some b ∧ terminated b) ∧
      st1.heap.live = st.heap.live) ∧
    (∃ st2, rule_of_five.move_assign st a a = .ok st2 ∧
      lookup a st2.objs = some p ∧ st2.content a = st.content a ∧ st2.Inv ∧
      st2.heap = st.heap) := by
  constructor
  · rcases copy_assign_spec i ha ha with ⟨hthrow, c, b, len, hp, hb, hl, hav⟩ |
      ⟨st1, hok, i1, _, _, hct, hlive, _, _, _⟩
    · refine ⟨st, Or.inr hthrow, ?_, rfl, i, ⟨p, ha, ?_⟩, rfl⟩
      · intro hfit
        obtain ⟨b1, hb1, tb1⟩ := i.valid a c (by rw [ha, hp])
        rw [hb] at hb1
        cases hb1
        obtain ⟨len1, hl1, hlen1⟩ := strlen_of_terminated tb1
        rw [hl] at hl1
        cases hl1
        have := hfit c b hp hb
        omega
      · intro c1 hc1
        exact i.valid a c1 (by rw [ha, hc1])
    · obtain ⟨q, hq⟩ : ∃ q, lookup a st1.objs = some q := by
        rcases copy_assign_inv i ha ha with h | ⟨st1', h1, _, k1⟩
        · rw [hok] at h; exact Outcome.noConfusion h
        · rw [hok] at h1
          cases h1
          exact (mem_keys_iff _ _).1 ((k1 a).2 ((mem_keys_iff _ _).2 ⟨p, ha⟩))
      refine ⟨st1, Or.inl hok, fun _ => hok, hct, i1, ⟨q, hq, ?_⟩, by omega⟩
      intro c hc
      exact i1.valid a c (by rw [hq, hc])
  · obtain ⟨st2, hok, i2, _⟩ := move_assign_inv i ha ha
    refine ⟨st2, hok, ?_, ?_, i2, ?_⟩ <;>
      · rw [move_assign_ok ha ha] at hok
        cases hok
        simp [lookup_assign, State.content, ha]

/-- Witness of C6 on an object constructed from `"abc"`. -/
theorem self_assignment_safe_witness :
    (∃ st1, (rule_of_five.copy_assign one_object 1 1 = .ok st1 ∨
             rule_of_five.copy_assign one_object 1 1 = .bad_alloc st1) ∧
      ((∀ c b, some 0 = some c → lookup c one_object.heap.blocks = some b →
          b.length ≤ one_object.heap.avail) →
        rule_of_five.copy_assign one_object 1 1 = .ok st1) ∧
      st1.content 1 = one_object.content 1 ∧ st1.Inv ∧
      (∃ q, lookup 1 st1.objs = some q ∧
        ∀ c, q = some c → ∃ b, lookup c st1.heap.blocks = some b ∧ terminated b) ∧
      st1.heap.live = one_object.heap.live) ∧
    (∃ st2, rule_of_five.move_assign one_object 1 1 = .ok st2 ∧
      lookup 1 st2.objs = some (some 0) ∧ st2.content 1 = one_object.content 1 ∧ st2.Inv ∧
      st2.heap = one_object.heap) :=
  self_assignment_safe one_object one_object_inv 1 (some 0) (by decide)

/-- C2: copy construction is a deep copy. In a state that satisfies the invariants,
for every live object `a` holding `p` (a block or, as after a move, the null handle)
and a new name `b` (the store being able to hand out the bytes of the block of `a`),
copy-constructing `b` from `a` returns; `b` reads what `a` read; `a` keeps its handle,
its block and what it reads; the handle of `b` is null when that of `a` is, and
otherwise is a block that was not allocated before and differs from the handle of
`a`. Afterwards, destroying either object, or replacing its storage by a copy
assignment from any live object, leaves what the other one reads. -/
theorem copy_construct_deep_copy (st : State) (i : st.Inv) (a b : Nat) (p : Ptr)
    (ha : lookup a st.objs = some p) (hb : lookup b st.objs = none)
    (hfit : ∀ c blk, p = some c → lookup c st.heap.blocks = some blk →
      blk.length ≤ st.heap.avail) :
    ∃ st1, rule_of_five.copy_construct st b a = .ok st1 ∧ st1.Inv ∧
      st1.content b = st.content a ∧ st1.content a = st.content a ∧
      lookup a st1.objs = some p ∧
      (∀ c, p = some c → lookup c st1.heap.blocks = lookup c st.heap.blocks) ∧
      (p = none → lookup b st1.objs = some none) ∧
      (∀ q, lookup b st1.objs = some (some q) →
        lookup q st.heap.blocks = none ∧ some q ≠ p) ∧
      (∃ st2, rule_of_five.destruct st1 a = .ok st2 ∧ st2.content b = st.content a) ∧
      (∃ st2, rule_of_five.destruct st1 b = .ok st2 ∧ st2.content a = st.content a) ∧
      (∀ y py, lookup y st1.objs = some py →
        ∃ st2, (rule_of_five.copy_assign st1 a y).after = some st2 ∧
          st2.content b = st.content a) ∧
      (∀ y py, lookup y st1.objs = some py →
        ∃ st2, (rule_of_five.copy_assign st1 b y).after = some st2 ∧
          st2.content a = st.content a) := by
  have hab : a ≠ b := by
    intro e; rw [e, hb] at ha; exact Option.noConfusion ha
  have hba : b ≠ a := fun e => hab e.symm
  -- the facts about the state after the construction
  have main : ∃ st1 pb, rule_of_five.copy_construct st b a = .ok st1 ∧ st1.Inv ∧
      st1.content b = st.content a ∧ st1.content a = st.content a ∧
      lookup a st1.objs = some p ∧ lookup b st1.objs = some pb ∧
      (∀ c, p = some c → lookup c st1.heap.blocks = lookup c st.heap.blocks) ∧
      (p = none → pb = none) ∧
      (∀ q, pb = some q → lookup q st.heap.blocks = none ∧ some q ≠ p) := by
    rcases copy_construct_inv i hb ha with hthrow | ⟨st1, hok, i1, _⟩
    · exfalso
      cases p with
      | none => rw [copy_construct_null hb ha] at hthrow; exact Outcome.noConfusion hthrow
      | some c =>
        obtain ⟨blk, hblk, tb⟩ := i.valid _ _ ha
        obtain ⟨len, hl, hlen⟩ := strlen_of_terminated tb
        have := hfit c blk rfl hblk
        rw [copy_construct_ok hb ha hblk hl (by omega)] at hthrow
        exact Outcome.noConfusion hthrow
    · cases p with
      | none =>
        have hok0 := hok
        rw [copy_construct_null hb ha] at hok
        cases hok
        have hla : lookup a (assign b none st.objs) = some none := by
          simp [lookup_assign, hab, ha]
        have hlb : lookup b (assign b (none : Ptr) st.objs) = some none := by
          simp [lookup_assign]
        refine ⟨_, none, hok0, i1, ?_, ?_, hla, hlb, ?_, fun _ => rfl, ?_⟩
        · rw [content_null hlb, content_null ha]
        · rw [content_null hla, content_null ha]
        · intro c hc; cases hc
        · intro q hq; cases hq
      | some c =>
        obtain ⟨blk, hblk, tb⟩ := i.valid _ _ ha
        obtain ⟨len, hl, hlen⟩ := strlen_of_terminated tb
        have hfits := hfit c blk rfl hblk
        have hok0 := hok
        rw [copy_construct_ok hb ha hblk hl (by omega), take_of_terminated hl tb] at hok
        cases hok
        have hne := i.ne_next ha
        have hla : lookup a (assign b (some st.heap.next) st.objs) = some (some c) := by
          simp [lookup_assign, hab, ha]
        have hlb : lookup b (assign b (some st.heap.next) st.objs)
            = some (some st.heap.next) := by
          simp [lookup_assign]
        have hbc : lookup c (st.heap.pushed blk).blocks = some blk := by
          simp [lookup_pushed, hne, hblk]
        have hbn : lookup st.heap.next (st.heap.pushed blk).blocks = some blk := by
          simp [lookup_pushed]
        refine ⟨_, some st.heap.next, hok0, i1, ?_, ?_, hla, hlb, ?_, ?_, ?_⟩
        · rw [content_block hlb hbn, content_block ha hblk]
        · rw [content_block hla hbc, content_block ha hblk]
        · intro c1 hc1
          cases hc1
          rw [hbc, hblk]
        · intro hc; cases hc
        · intro q hq
          cases hq
          refine ⟨i.heap_wf.lookup_next, ?_⟩
          intro e
          exact hne (Option.some.inj e).symm
  obtain ⟨st1, pb, hok, i1, hcb, hca, hla, hlb, hblk, hnull, hfresh⟩ := main
  refine ⟨st1, hok, i1, hcb, hca, hla, hblk, ?_, ?_, ?_, ?_, ?_, ?_⟩
  · intro hp; rw [hlb, hnull hp]
  · intro q hq
    rw [hlb] at hq
    exact hfresh q (Option.some.inj hq)
  · obtain ⟨st2, h2, _, hc2⟩ := destruct_spec i1 hla
    exact ⟨st2, h2, by rw [hc2 b hba, hcb]⟩
  · obtain ⟨st2, h2, _, hc2⟩ := destruct_spec i1 hlb
    exact ⟨st2, h2, by rw [hc2 a hab, hca]⟩
  · intro y py hy
    rcases copy_assign_spec i1 hla hy with ⟨hthrow, _⟩ | ⟨st2, h2, _, _, hc2, _⟩
    · exact ⟨st1, by rw [hthrow]; rfl, hcb⟩
    · exact ⟨st2, by rw [h2]; rfl, by rw [hc2 b hba, hcb]⟩
  · intro y py hy
    rcases copy_assign_spec i1 hlb hy with ⟨hthrow, _⟩ | ⟨st2, h2, _, _, hc2, _⟩
    · exact ⟨st1, by rw [hthrow]; rfl, hca⟩
    · exact ⟨st2, by rw [h2]; rfl, by rw [hc2 a hab, hca]⟩

/-- Witness of C2: `o2` (object 2) is copy-constructed from `o1` (object 1), which was
constructed from `"abc"`, as on lines 92-94. -/
theorem copy_construct_deep_copy_witness :
    ∃ st1, rule_of_five.copy_construct one_object 2 1 = .ok st1 ∧ st1.Inv ∧
      st1.content 2 = one_object.content 1 ∧ st1.content 1 = one_object.content 1 ∧
      lookup 1 st1.objs = some (some 0) ∧
      (∀ c, some 0 = some c →
        lookup c st1.heap.blocks = lookup c one_object.heap.blocks) ∧
      (some 0 = none → lookup 2 st1.objs = some none) ∧
      (∀ q, lookup 2 st1.objs = some (some q) →
        lookup q one_object.heap.blocks = none ∧ some q ≠ some 0) ∧
      (∃ st2, rule_of_five.destruct st1 1 = .ok st2 ∧
        st2.content 2 = one_object.content 1) ∧
      (∃ st2, rule_of_five.destruct st1 2 = .ok st2 ∧
        st2.content 1 = one_object.content 1) ∧
      (∀ y py, lookup y st1.objs = some py →
        ∃ st2, (rule_of_five.copy_assign st1 1 y).after = some st2 ∧
          st2.content 2 = one_object.content 1) ∧
      (∀ y py, lookup y st1.objs = some py →
        ∃ st2, (rule_of_five.copy_assign st1 2 y).after = some st2 ∧
          st2.content 1 = one_object.content 1) :=
  copy_construct_deep_copy one_object one_object_inv 1 2 (some 0) (by decide) (by decide)
    (by
      intro c blk hc hblk
      cases hc
      have h1 : some [97, 98, 99, 0] = some blk := hblk
      cases h1
      decide)

/-- C10: the hand-rolled copy assignment is equivalent to copy-then-exchange. In a
state that satisfies the invariants, for live objects `t` and `s` (the same object
or not) whose handles are blocks: when `t` and `s` are different objects,
`rule_of_three::operator=` and `rule_of_five::operator=` end in the same way and
leave the same state; in every case neither has undefined behaviour, and the states
they leave agree on what `t` reads, on what `s` reads, and on the number of live
blocks. -/
theorem copy_assign_equivalent (st : State) (i : st.Inv) (t s ct cs : Nat)
    (ht : lookup t st.objs = some (some ct)) (hs : lookup s st.objs = some (some cs)) :
    (t ≠ s → rule_of_three.copy_assign st t s = rule_of_five.copy_assign st t s) ∧
    ∃ st3 st5, (rule_of_three.copy_assign st t s).after = some st3 ∧
      (rule_of_five.copy_assign st t s).after = some st5 ∧
      st3.content t = st5.content t ∧ st3.content s = st5.content s ∧
      st3.heap.live = st5.heap.live := by
  obtain ⟨b, hb, tb⟩ := i.valid _ _ hs
  obtain ⟨len, hl, hlen⟩ := strlen_of_terminated tb
  obtain ⟨bc, hc, _⟩ := i.valid _ _ ht
  have hne := i.ne_next ht
  have heq : t ≠ s → rule_of_three.copy_assign st t s = rule_of_five.copy_assign st t s := by
    intro hts
    by_cases ha : len + 1 ≤ st.heap.avail
    · rw [three_copy_assign_ok hts ht hs hb hl ha hc hne,
        copy_assign_ok ht hs hb hl ha hc hne]
    · rw [three_copy_assign_throw hts ht hs hb hl (by omega),
        copy_assign_throw ht hs hb hl (by omega)]
  refine ⟨heq, ?_⟩
  by_cases hts : t = s
  · subst hts
    rw [three_copy_assign_self ht]
    rcases copy_assign_spec i ht ht with ⟨hthrow, _⟩ | ⟨st5, hok, _, _, _, hct, hlive, _⟩
    · exact ⟨st, st, rfl, by rw [hthrow]; rfl, rfl, rfl, rfl⟩
    · refine ⟨st, st5, rfl, by rw [hok]; rfl, hct.symm, hct.symm, ?_⟩
      simp at hlive
      omega
  · rw [heq hts]
    rcases copy_assign_spec i ht hs with ⟨hthrow, _⟩ | ⟨st5, hok, _⟩
    · exact ⟨st, st, by rw [hthrow]; rfl, by rw [hthrow]; rfl, rfl, rfl, rfl⟩
    · exact ⟨st5, st5, by rw [hok]; rfl, by rw [hok]; rfl, rfl, rfl, rfl⟩

/-- Witness of C10 on `t = "def"`, `s = "abc"`. -/
theorem copy_assign_equivalent_witness :
    (1 ≠ 2 → rule_of_three.copy_assign two_objects 1 2
      = rule_of_five.copy_assign two_objects 1 2) ∧
    ∃ st3 st5, (rule_of_three.copy_assign two_objects 1 2).after = some st3 ∧
      (rule_of_five.copy_assign two_objects 1 2).after = some st5 ∧
      st3.content 1 = st5.content 1 ∧ st3.content 2 = st5.content 2 ∧
      st3.heap.live = st5.heap.live :=
  copy_assign_equivalent two_objects two_objects_inv 1 2 0 1 (by decide) (by decide)

end MoveSemantics
